import Mathlib

/-!
Shallow embedding of the FastTTS speech-synthesis chunking and timing pipeline
(`src/tts/minimax_tts_engine.py`, `src/utils/chinese_converter.py`,
`src/progress_manager.py`) and proofs about its specified properties.

External effects are modelled explicitly: `jieba.cut` appears as the list of
tokens it returns (its documented contract being that the tokens concatenate
to the input text), the MiniMax HTTP API, the audio-duration probe and the MFA
aligner are oracle fields of an environment record, and Python `float`
arithmetic is modelled exactly over `ℚ`.
-/

namespace FastTTS

/-- Python `str` whitespace: the characters recognised by `str.strip()` and
`str.isspace()`. -/
def pyIsSpace (c : Char) : Bool :=
  [' ', '\t', '\n', '\r',
   (Char.ofNat 0x0b), (Char.ofNat 0x0c),
   (Char.ofNat 0x1c), (Char.ofNat 0x1d), (Char.ofNat 0x1e), (Char.ofNat 0x1f),
   (Char.ofNat 0x85), (Char.ofNat 0xa0), (Char.ofNat 0x1680),
   (Char.ofNat 0x2028), (Char.ofNat 0x2029), (Char.ofNat 0x202f),
   (Char.ofNat 0x205f), (Char.ofNat 0x3000)].contains c
  || decide (0x2000 ≤ c.toNat ∧ c.toNat ≤ 0x200a)

/-- Python `str.strip()` with no arguments: drop leading and trailing
whitespace. -/
def pyStrip (s : String) : String :=
  ⟨((s.data.dropWhile pyIsSpace).reverse.dropWhile pyIsSpace).reverse⟩

/-- Python `str.isspace()`: non-empty and every character is whitespace. -/
def pyIsspaceStr (s : String) : Bool :=
  !s.data.isEmpty && s.data.all pyIsSpace

/-- Python substring containment `needle in hay`. -/
def pyContainsSub (needle hay : String) : Bool :=
  hay.data.tails.any (fun t => needle.data.isPrefixOf t)

/-- Python `''.join(ws)`. -/
def joinS : List String → String
  | [] => ""
  | w :: ws => w ++ joinS ws

/-- The check `'一' <= char <= '鿿'` the engine uses to recognise an
ideographic (CJK) character. -/
def isCJK (c : Char) : Bool :=
  decide (0x4e00 ≤ c.toNat ∧ c.toNat ≤ 0x9fff)

/-- The token post-processing both `_split_text_into_chunks` and
`_estimate_word_timings` apply to segmenter output:
`[word.strip() for word in jieba.cut(text, cut_all=False) if word.strip()]`.
The `jieba.cut` call itself is modelled by passing its token list `toks`. -/
def stripWords (toks : List String) : List String :=
  (toks.map pyStrip).filter (fun w => w != "")

/-- The `all_punctuation` set of `_filter_punctuation_timings`, as Python actually
parses the literal (note: the source line `..., \x27\x27\x27, \x27\x27\x27,` is a
triple-quoted string, so the set also contains the two-character string ", ").
Python set: order irrelevant, listed here sorted. -/
def all_punctuation : List String :=
  ["!", "\"", "#", "$", "%", "&", "'", "(", ")", "*", "+", ",",
   ", ", ".", "/", ":", ";", "<", "=", ">", "?", "@", "[", "\\",
   "]", "^", "_", "\x60", "\x7b", "|", "\x7d", "~", "·", "–", "—", "…",
   "、", "。", "〈", "〉", "《", "》", "【", "】", "〔", "〕", "〖", "〗",
   "〘", "〙", "〚", "〛", "！", "（", "）", "，", "：", "；", "＜", "＞",
   "？", "［", "］", "｛", "｝"]

/-- `sentence_endings` of `_find_best_break_point` (each a one-character string in the
source; `p in word` is substring membership, i.e. character membership). -/
def sentence_endings : List Char := ['。', '！', '？', '!', '?', '.']

/-- `clause_breaks` of `_find_best_break_point`. -/
def clause_breaks : List Char := ['，', '、', ',', ';', '；']

/-- `ui_compatibility_mapping` of `ChineseConverter`, verbatim from the source file.
The file stores double-encoded (mojibake) text, so the keys and values are these
literal multi-character Latin strings — that is what the Python runtime sees.
Source order; Python dict semantics: a later duplicate key overrides. -/
def ui_compatibility_mapping : List (String × String) :=
  [("ÈÇ£Âπ∫", "ÈÇ£‰πà"), ("ÈÇ£È∫Ω", "ÈÇ£‰πà"), ("Ë¶ÅÂπ∫", "Ë¶Å‰πà"),
   ("Ë¶ÅÈ∫Ω", "Ë¶Å‰πà"), ("‰ªÄÂπ∫", "‰ªÄ‰πà"), ("‰ªÄÈ∫Ω", "‰ªÄ‰πà"),
   ("Áû≠", "‰∫Ü"), ("È∫Ω", "‰πà"), ("Âπ∫", "‰πà"),
   ("Êñº", "‰∫é"), ("Áà≤", "‰∏∫"), ("Ëàá", "‰∏é"),
   ("ÈÅé", "Ëøá"), ("‰æÜ", "Êù•"), ("ÊôÇ", "Êó∂"),
   ("ÂÄã", "‰∏™"), ("ÂÄë", "‰ª¨"), ("ÈÄô", "Ëøô"),
   ("Á®Æ", "Áßç"), ("Êáâ", "Â∫î"), ("ÊúÉ", "‰ºö"),
   ("Ë™™", "ËØ¥"), ("ÈÇÑ", "Ëøò"), ("Ê≤í", "Ê≤°"),
   ("È°ØËëó", "ÊòæÁùÄ"), ("ËëóÂêç", "ËëóÂêç")]

/-- `manual_char_mapping` of `ChineseConverter`, verbatim from the source file (same
double-encoding as `ui_compatibility_mapping`: every key and value is a multi-
character string, not a single CJK character). Raw source order including duplicate
keys; Python dict semantics: the last occurrence of a key wins. -/
def manual_char_mapping : List (String × String) :=
  [("Âúã", "ÂõΩ"), ("Â≠∏", "Â≠¶"), ("Êù±", "‰∏ú"),
   ("Á∂ì", "Áªè"), ("Áôº", "Âèë"), ("Èï∑", "Èïø"),
   ("Èñã", "ÂºÄ"), ("Èóú", "ÂÖ≥"), ("ÈñÄ", "Èó®"),
   ("Âïè", "ÈóÆ"), ("Èñì", "Èó¥"), ("Ê•≠", "‰∏ö"),
   ("Áî¢", "‰∫ß"), ("Âãô", "Âä°"), ("Âì°", "Âëò"),
   ("Èöõ", "ÈôÖ"), ("Èªû", "ÁÇπ"), ("Á∑ö", "Á∫ø"),
   ("Áæ©", "‰πâ"), ("Ë≠∞", "ËÆÆ"), ("Ë™ç", "ËÆ§"),
   ("Ë≠ò", "ËØÜ"), ("ÂØ¶", "ÂÆû"), ("Èöõ", "ÈôÖ"),
   ("Áèæ", "Áé∞"), ("Ê©ü", "Êú∫"), ("Êßã", "ÊûÑ"),
   ("Ê∫ñ", "ÂáÜ"), ("Ê®ô", "Ê†á"), ("Á¢∫", "Á°Æ"),
   ("Á∏Ω", "ÊÄª"), ("Áµ±", "Áªü"), ("Ê¢ù", "Êù°"),
   ("Âúò", "Âõ¢"), ("ÈÅî", "Ëææ"), ("ÈÅã", "Ëøê"),
   ("ÈÄ≤", "Ëøõ"), ("ÈÅ∏", "ÈÄâ"), ("ÈÄ£", "Ëøû"),
   ("Â∞é", "ÂØº"), ("Ââµ", "Âàõ"), ("Èüø", "Âìç"),
   ("ËÅ≤", "Â£∞"), ("È°å", "È¢ò"), ("È°û", "Á±ª"),
   ("Ë≥™", "Ë¥®"), ("Á¥ö", "Á∫ß"), ("Ê•µ", "ÊûÅ"),
   ("Ê±∫", "ÂÜ≥"), ("Â±§", "Â±Ç"), ("Áï∞", "ÂºÇ"),
   ("Ë≠∑", "Êä§"), ("Ë¶ñ", "ËßÜ"), ("Ë¶∫", "Ëßâ"),
   ("ËßÄ", "ËßÇ"), ("ËÅΩ", "Âê¨"), ("ËÆÄ", "ËØª"),
   ("ÂØ´", "ÂÜô"), ("Ë™û", "ËØ≠"), ("Ë©±", "ËØù"),
   ("Ë©û", "ËØç"), ("Ë≠Ø", "ËØë"), ("Ë®ò", "ËÆ∞"),
   ("ÈåÑ", "ÂΩï"), ("Â†±", "Êä•"), ("Á¥ô", "Á∫∏"),
   ("Êõ∏", "‰π¶"), ("Á≠Ü", "Á¨î"), ("Áï´", "Áîª"),
   ("Âúñ", "Âõæ"), ("Â†¥", "Âú∫"), ("Ëôï", "Â§Ñ"),
   ("Ëæ¶", "Âäû"), ("Âãô", "Âä°"), ("Ë≤ª", "Ë¥π"),
   ("ÂÉπ", "‰ª∑"), ("Ë≤∑", "‰π∞"), ("Ë≥£", "Âçñ"),
   ("Ë≤®", "Ë¥ß"), ("Ë≤°", "Ë¥¢"), ("Èå¢", "Èí±"),
   ("ÈäÄ", "Èì∂"), ("Èêµ", "ÈìÅ"), ("Èãº", "Èí¢"),
   ("ÈäÖ", "Èìú"), ("Ëªä", "ËΩ¶"), ("È£õ", "È£û"),
   ("Ëàπ", "Ëàπ"), ("Èõª", "Áîµ"), ("Á∂≤", "ÁΩë"),
   ("Ë®à", "ËÆ°"), ("Ë®≠", "ËÆæ"), ("ÂÇô", "Â§á"),
   ("Âô®", "Âô®"), ("Ë°ì", "ÊúØ"), ("ÈÜ´", "Âåª"),
   ("Ëó•", "ËçØ"), ("ÁôÇ", "Áñó"), ("ÁóÖ", "ÁóÖ"),
   ("Èô¢", "Èô¢"), ("È§ä", "ÂÖª"), ("Ë≠∑", "Êä§"),
   ("Â∫∑", "Â∫∑"), ("ÂÅ•", "ÂÅ•"), ("Ê™¢", "Ê£Ä"),
   ("Ê∏¨", "Êµã"), ("Ë©¶", "ËØï"), ("È©ó", "È™å"),
   ("Ê™¢", "Ê£Ä"), ("Êü•", "Êü•"), ("Ë™ø", "Ë∞É"),
   ("ÁØÄ", "ËäÇ"), ("Âà∂", "Âà∂"), ("Êéß", "Êéß"),
   ("ÁÆ°", "ÁÆ°"), ("ÁêÜ", "ÁêÜ"), ("Ë¶è", "ËßÑ"),
   ("ÁØÑ", "ËåÉ"), ("Ê∫ñ", "ÂáÜ"), ("Ââá", "Âàô"),
   ("Âæã", "Âæã"), ("Ê≥ï", "Ê≥ï"), ("Ê¨ä", "ÊùÉ"),
   ("Âà©", "Âà©"), ("Áæ©", "‰πâ"), ("Êøü", "Êµé"),
   ("Áøí", "‰π†"), ("Â∞ç", "ÂØπ"), ("Áµ°", "Áªú"),
   ("ÊúÉ", "‰ºö"), ("ÁÇ∫", "‰∏∫"), ("ÈÄô", "Ëøô"),
   ("ÂÄã", "‰∏™"), ("ÂÄë", "‰ª¨"), ("‰æÜ", "Êù•"),
   ("ÊôÇ", "Êó∂"), ("Á®Æ", "Áßç"), ("Êáâ", "Â∫î"),
   ("Ë™™", "ËØ¥"), ("ÈÇÑ", "Ëøò"), ("Ê≤í", "Ê≤°"),
   ("ÈÅé", "Ëøá"), ("Ëàá", "‰∏é"), ("Êñº", "‰∫é"),
   ("Áà≤", "‰∏∫"), ("ÂÑò", "Â∞Ω"), ("Áõ°", "Â∞Ω"),
   ("Âæû", "‰ªé"), ("Ë°Ü", "‰ºó"), ("Áúæ", "‰ºó"),
   ("È´î", "‰Ωì"), ("ÊÖã", "ÊÄÅ"), ("ËÆä", "Âèò"),
   ("ÈÅ∑", "ËøÅ"), ("ËΩâ", "ËΩ¨"), ("ÂÇ≥", "‰º†"),
   ("Áµ±", "Áªü"), ("Êº¢", "Ê±â"), ("Áï∂", "ÂΩì"),
   ("Èª®", "ÂÖö"), ("ÂÖ©", "‰∏§"), ("ÈÑ∞", "ÈÇª"),
   ("ÂÇ¢", "ÂÆ∂"), ("Èõñ", "ËôΩ"), ("ÁÑ∂", "ÁÑ∂"),
   ("Âæå", "Âêé"), ("Âçª", "Âç¥"), ("Áµê", "Áªì"),
   ("ÊûÑ", "ÊûÑ"), ("Ëëó", "ÁùÄ"), ("È°Ø", "Êòæ"),
   ("È∫º", "‰πà"), ("È∫Ω", "‰πà"), ("Âæå", "Âêé"),
   ("‰æÜ", "Êù•"), ("Â§ß", "Â§ß"), ("ÂÇ¢", "ÂÆ∂"),
   ("È´î", "‰Ωì"), ("Ë£Ω", "Âà∂"), ("ÂÖß", "ÂÜÖ"),
   ("Âú®", "Âú®"), ("ÊÄß", "ÊÄß"), ("ÂàÜ", "ÂàÜ"),
   ("Ê∞¥", "Ê∞¥"), ("Â∂∫", "Â≤≠"), ("Âóé", "Âêó"),
   ("Èñ§", "Âêà"), ("Ê≥ï", "Ê≥ï"), ("Âñ™", "‰∏ß"),
   ("Â§±", "Â§±"), ("È†ª", "È¢ë"), ("ÁπÅ", "ÁπÅ"),
   ("ÊπØ", "Ê±§"), ("Ê≠¶", "Ê≠¶"), ("Âπæ", "Âá†"),
   ("‰πé", "‰πé"), ("ÁµÇ", "Áªà"), ("Áîü", "Áîü"),
   ("Ë±°", "Ë±°"), ("Âæµ", "ÂæÅ"), ("Ëºï", "ËΩª"),
   ("Êòì", "Êòì"), ("Ê∞∏", "Ê∞∏"), ("ÈÅ†", "Ëøú"),
   ("ËÆì", "ËÆ©"), ("ÈÇ£", "ÈÇ£"), ("Ê®£", "Ê†∑"),
   ("ÈÄô", "Ëøô"), ("Ê®£", "Ê†∑"), ("Èõ£", "Èöæ"),
   ("ÈÅì", "ÈÅì"), ("ÂàÜ", "ÂàÜ"), ("ÈÅì", "ÈÅì"),
   ("Êèö", "Êâ¨"), ("Èë£", "Èï≥"), ("Ëøë", "Ëøë"),
   ("Èõñ", "ËôΩ"), ("ÁÑ∂", "ÁÑ∂"), ("Êßã", "ÊûÑ"),
   ("È°Ø", "Êòæ"), ("Ëëó", "ÁùÄ"), ("Áµê", "Áªì"),
   ("Êßã", "ÊûÑ"), ("È†ª", "È¢ë"), ("ÁπÅ", "ÁπÅ"),
   ("Ëá∫", "Âè∞"), ("ÁÅ£", "Êπæ"), ("Â≥∂", "Â≤õ"),
   ("ÁúÅ", "ÁúÅ"), ("Á∏£", "Âéø"), ("ÂçÄ", "Âå∫"),
   ("ÈéÆ", "Èïá"), ("ÈÑâ", "‰π°"), ("Êùë", "Êùë"),
   ("Ë°ó", "Ë°ó"), ("Ëôü", "Âè∑"), ("Ê®ì", "Ê•º"),
   ("Â±§", "Â±Ç"), ("ÂÆ§", "ÂÆ§"), ("Êà∂", "Êà∑"),
   ("ÊôÇ", "Êó∂"), ("Èñì", "Èó¥"), ("Èêò", "Èíü"),
   ("ÂàÜ", "ÂàÜ"), ("Áßí", "Áßí"), ("ÈÄ±", "Âë®"),
   ("Ê≠≤", "Â≤Å"), ("ÈΩ°", "ÈæÑ"), ("Ê≠∑", "ÂéÜ"),
   ("ÊõÜ", "ÂéÜ"), ("ÂÑÑ", "‰∫ø"), ("Ëê¨", "‰∏á"),
   ("ÂçÉ", "ÂçÉ"), ("Áôæ", "Áôæ"), ("Êãæ", "ÂçÅ"),
   ("È†≠", "Â§¥"), ("Ëáâ", "ËÑ∏"), ("Áúº", "Áúº"),
   ("Èºª", "Èºª"), ("Âò¥", "Âò¥"), ("ËÄ≥", "ËÄ≥"),
   ("Êâã", "Êâã"), ("ËÖ≥", "ËÑö"), ("ËÖø", "ËÖø"),
   ("Ë∫´", "Ë∫´"), ("È´î", "‰Ωì"), ("ÂøÉ", "ÂøÉ"),
   ("ËÖ¶", "ËÑë"), ("Ë°Ä", "Ë°Ä"), ("È™®", "È™®"),
   ("Ê®π", "Ê†ë"), ("Ëä±", "Ëä±"), ("Ëçâ", "Ëçâ"),
   ("Ëëâ", "Âè∂"), ("Êûú", "Êûú"), ("È≥•", "È∏ü"),
   ("È≠ö", "È±º"), ("Ëü≤", "Ëô´"), ("Áç∏", "ÂÖΩ"),
   ("Èæç", "Èæô")]

/-- A word-timing dictionary as built by the engine: keys `word`,
`start_time`, `end_time`, `duration`, `source`, `confidence`, `is_mfa`, plus
the auxiliary `offset` key that `_adjust_timing_offsets` reads with a default
and writes — `none` models a dict in which that key is absent. Python floats
are modelled exactly over `ℚ`. -/
@[ext]
structure PyTiming where
  word : String
  start_time : ℚ
  end_time : ℚ
  duration : ℚ
  source : String
  confidence : ℚ
  is_mfa : Bool
  offset : Option ℚ
  deriving DecidableEq, Repr, Inhabited

/-- A sentence-timing dictionary
(`{"text": ..., "start_time": 0, "end_time": audio_length_ms}`) as returned by
`_call_minimax_api`; `end_time` is an `Option` because `_estimate_word_timings`
reads it with `dict.get` and a default. -/
structure SentenceTiming where
  text : String
  start_time : ℚ
  end_time : Option ℚ
  deriving DecidableEq, Repr

/-- Lookup in a Python dict literal represented by its raw key-value list:
the last binding of a key wins (later duplicate keys override earlier ones). -/
def pyDictGet (l : List (String × String)) (k : String) : Option String :=
  (l.reverse.find? (fun p => p.1 == k)).map Prod.snd

/-- `ChineseConverter.convert_word`.  The OpenCC engine `self.cc` belongs to
the external `opencc` package, so it is modelled as
`cc : Option (String → Option String)`: `none` for an absent engine, and
`some f` with `f w = none` modelling `cc.convert(w)` raising (in both cases
the code falls through to the manual character table).  Logging and the
statistics counters are effects that do not influence the returned string and
are omitted. -/
def convert_word (cc : Option (String → Option String)) (w : String) : String :=
  if w = "" then w
  else
    match pyDictGet ui_compatibility_mapping w with
    | some v => v
    | none =>
      let engine : Option String :=
        match cc with
        | some f =>
          match f w with
          | some c => if c ≠ w then some c else none
          | none => none
        | none => none
      match engine with
      | some c => c
      | none =>
        let mapped := w.data.map (fun ch =>
          (pyDictGet manual_char_mapping (String.singleton ch)).getD (String.singleton ch))
        if w.data.any (fun ch => (pyDictGet manual_char_mapping (String.singleton ch)).isSome)
        then joinS mapped
        else w

/-- `ChineseConverter.convert_word_timings`: copy each timing, replacing only
`word` by its conversion; entries whose word is empty are passed through
unchanged.  Total — "NEVER fails". -/
def convert_word_timings (cc : Option (String → Option String))
    (ts : List PyTiming) : List PyTiming :=
  ts.map (fun t => if t.word = "" then t else { t with word := convert_word cc t.word })

/-- The keep-condition of `_filter_punctuation_timings`:
`word and word not in all_punctuation and not word.isspace() and
any('一' <= c <= '鿿' for c in word)` where `word` is the stripped
word of the entry. -/
def filterKeep (w : String) : Bool :=
  let w' := pyStrip w
  (w' != "") && !(all_punctuation.contains w') && !(pyIsspaceStr w') && w'.data.any isCJK

/-- `_filter_punctuation_timings` (the log line does not affect the result). -/
def filter_punctuation_timings (ts : List PyTiming) : List PyTiming :=
  ts.filter (fun t => filterKeep t.word)

/-- `_finalize_timings`: convert Traditional → Simplified, filter punctuation;
the trailing `validate_simplified_chinese` call only logs and never changes
the returned (filtered) list. -/
def finalize_timings (cc : Option (String → Option String))
    (ts : List PyTiming) : List PyTiming :=
  filter_punctuation_timings (convert_word_timings cc ts)

/-- The total duration `_estimate_word_timings` derives:
`sentence_timings[0].get("end_time", len(words) * 400) if sentence_timings
else len(words) * 400`. -/
def est_total (toks : List String) (st : List SentenceTiming) : ℚ :=
  match st with
  | [] => 400 * ((stripWords toks).length : ℚ)
  | s :: _ => s.end_time.getD (400 * ((stripWords toks).length : ℚ))

/-- `total_chars = sum(len(w) for w in words)` as a rational. -/
def est_total_chars (toks : List String) : ℚ :=
  (((stripWords toks).map String.length).sum : ℚ)

/-- The timing-emitting loop of `_estimate_word_timings`: duration
`max(total_duration * (len(word) / total_chars), 100)`, laid out from `cur`. -/
def estSpans (total totalChars : ℚ) : List String → ℚ → List PyTiming
  | [], _ => []
  | w :: ws, cur =>
    let d := max (total * ((w.length : ℚ) / totalChars)) 100
    { word := w, start_time := cur, end_time := cur + d, duration := d,
      source := "jieba_estimation", confidence := 0, is_mfa := false, offset := none }
      :: estSpans total totalChars ws (cur + d)

/-- `_estimate_word_timings` (with `jieba.cut(text)` modelled by `toks`). -/
def estimate_word_timings (toks : List String) (st : List SentenceTiming) : List PyTiming :=
  let words := stripWords toks
  if words.isEmpty then []
  else if est_total toks st ≤ 0 ∨ est_total_chars toks = 0 then []
  else estSpans (est_total toks st) (est_total_chars toks) words 0

/-- `_adjust_timing_offsets`: shift `start_time` and `end_time` by `offset`
and set the auxiliary key to `t.get('offset', t['start_time']) + offset`,
which materialises the key when it was absent. -/
def adjust_timing_offsets (ts : List PyTiming) (offset : ℚ) : List PyTiming :=
  ts.map (fun t =>
    { t with
      start_time := t.start_time + offset,
      end_time := t.end_time + offset,
      offset := some (t.offset.getD t.start_time + offset) })

/-- The priority `_find_best_break_point` assigns to a candidate word:
`2 if any(p in word for p in sentence_endings) else 1 if any(p in word for p
in clause_breaks) else -1` (each `p` is a single character, so `p in word` is
character membership). -/
def breakPriority (w : String) : Int :=
  if w.data.any (fun c => sentence_endings.contains c) then 2
  else if w.data.any (fun c => clause_breaks.contains c) then 1
  else -1

/-- One iteration of the `for i in range(min_pos, max_pos)` loop of
`_find_best_break_point`, the accumulator being `(best_pos, best_priority)`. -/
def bestStep (words : List String) (targetLength : Nat) (acc : Nat × Int) (i : Nat) : Nat × Int :=
  let priority := breakPriority (words.getD i "")
  if priority > acc.2 ∨ (priority = acc.2 ∧
      ((i : Int) - (targetLength : Int)).natAbs < ((acc.1 : Int) - (targetLength : Int)).natAbs)
  then (i, priority) else acc

/-- `_find_best_break_point`.  `int(target_length * 0.2)` is embedded as
`targetLength / 5` (its value throughout the realistic range; none of the
properties proved below depend on the size of the search window). -/
def find_best_break_point (words : List String) (targetLength : Nat) : Nat :=
  let searchRange := max 5 (targetLength / 5)
  let minPos := max (targetLength - searchRange) 1
  let maxPos := min (targetLength + searchRange) words.length
  ((List.range' minPos (maxPos - minPos)).foldl (bestStep words targetLength)
    (targetLength, (-1 : Int))).1

/-- The `while current_start < len(words)` loop of `_split_text_into_chunks`,
phrased on the remaining suffix `words[current_start:]`.  `fuel` bounds the
number of iterations: whenever `1 ≤ maxWords` the loop consumes at least one
word per round, so `fuel = words.length` reproduces the Python loop exactly
(see `split_chunks_loop_join`). -/
def split_chunks_loop (maxWords : Nat) : Nat → List String → List String
  | 0, _ => []
  | fuel + 1, rem =>
    if rem.isEmpty then []
    else if rem.length ≤ maxWords then [joinS rem]
    else
      let bp := find_best_break_point rem (min maxWords rem.length)
      joinS (rem.take bp) :: split_chunks_loop maxWords fuel (rem.drop bp)

/-- `_split_text_into_chunks` (with `jieba.cut(text)` modelled by `toks`). -/
def split_text_into_chunks (text : String) (toks : List String) (maxWords : Nat) : List String :=
  let words := stripWords toks
  if words.isEmpty then [text]
  else split_chunks_loop maxWords words.length words

/-- Audio bytes, abstractly. -/
abbrev Audio := List Nat

/-- The progress-session record of `TTSProgressManager` (the fields the TTS
engine reads or writes; wall-clock timestamps are omitted). -/
structure Session where
  total_chunks : Nat
  current_chunk : Nat
  status : String
  message : String
  error : Option String
  deriving DecidableEq, Repr

/-- `TTSProgressManager.create_session`. -/
def create_session (total : Nat) : Session :=
  { total_chunks := total, current_chunk := 0, status := "starting",
    message := "Initializing TTS generation...", error := none }

/-- `TTSProgressManager.update_progress` with an explicit message (the engine
always passes one) and the default status `"processing"`.  It never touches
the `error` field. -/
def update_progress (s : Session) (cur : Nat) (msg : String) : Session :=
  { s with current_chunk := cur, status := "processing", message := msg }

/-- `TTSProgressManager.set_error`. -/
def set_error (s : Session) (e : String) : Session :=
  { s with status := "error", error := some e, message := "Error: " ++ e }

/-- `TTSProgressManager.complete_session` (the SSE broadcast and delayed
cleanup do not change the session fields recorded here). -/
def complete_session (s : Session) : Session :=
  { s with status := "completed", message := "TTS generation completed successfully!" }

/-- Observable effects of `_generate_chunked_speech`, in order of occurrence:
the rate-limit wait before a chunk, an API call (chunk index, attempt 0 or 1),
and the fixed `asyncio.sleep(20)` cooldown after a 429. -/
inductive Event where
  | rateWait : Nat → Event
  | apiCall : Nat → Nat → Event
  | sleep : ℚ → Event
  deriving DecidableEq, Repr

/-- Environment of oracles for the chunked orchestrator: `api i a` is the
result of `_call_minimax_api` for chunk `i`, attempt `a` (`Except.error e`
models a raised exception whose `str` is `e`); `jieba` is the segmenter;
`probe audio` is the raw duration `_get_actual_audio_duration` measures
before its `max(_, 100)` floor; `finalPass` is the list `_run_final_mfa_pass`
returns (`[]` on aligner unavailability, failure, or empty audio); `cc` is
the script-conversion engine. -/
structure OrchEnv where
  api : Nat → Nat → Except String (Audio × List SentenceTiming)
  jieba : String → List String
  probe : Audio → ℚ
  finalPass : List PyTiming
  cc : Option (String → Option String)

/-- `_get_actual_audio_duration`: the probed value floored at 100 ms
(`return max(duration_ms, 100)`). -/
def get_actual_audio_duration (env : OrchEnv) (a : Audio) : ℚ :=
  max (env.probe a) 100

/-- The retry test `"429" in str(e)`. -/
def contains429 (e : String) : Bool := pyContainsSub "429" e

/-- The message `set_error` receives on a non-429 chunk failure:
`f"Chunk {i+1} failed: {e}"`. -/
def chunkFailMsg (i : Nat) (e : String) : String :=
  "Chunk " ++ toString (i + 1) ++ " failed: " ++ e

/-- State threaded through the chunk loop of `_generate_chunked_speech`. -/
structure LoopState where
  audio : List Audio
  temp : List PyTiming
  cum : ℚ
  session : Session
  events : List Event

/-- The accumulation a successfully synthesized chunk performs: append the
audio, extend the temporary timings by the offset-adjusted estimates, and
advance the cumulative clock by the measured audio duration. -/
def accumulateChunk (env : OrchEnv) (chunk : String) (audio : Audio)
    (timings : List SentenceTiming) (st : LoopState) : LoopState :=
  { st with
    audio := st.audio ++ [audio],
    temp := st.temp ++
      adjust_timing_offsets (estimate_word_timings (env.jieba chunk) timings) st.cum,
    cum := st.cum + get_actual_audio_duration env audio }

/-- One iteration of the chunk loop: progress update, rate-limit wait, API
call; on an error containing "429" the fixed 20 s sleep and a single retry
(whose failure propagates without `set_error`); on any other error,
`set_error` and abort.  Returns the new state and `some e` when the chunk
raised `e` out of the loop. -/
def processChunk (env : OrchEnv) (total : Nat) (i : Nat) (chunk : String)
    (st : LoopState) : LoopState × Option String :=
  let st1 : LoopState :=
    { st with
      session := update_progress st.session (i + 1)
        ("Processing chunk " ++ toString (i + 1) ++ "/" ++ toString total ++ "..."),
      events := st.events ++ [Event.rateWait i, Event.apiCall i 0] }
  match env.api i 0 with
  | Except.ok (audio, timings) => (accumulateChunk env chunk audio timings st1, none)
  | Except.error e =>
    if contains429 e then
      let st2 := { st1 with events := st1.events ++ [Event.sleep 20, Event.apiCall i 1] }
      match env.api i 1 with
      | Except.ok (audio, timings) => (accumulateChunk env chunk audio timings st2, none)
      | Except.error e2 => (st2, some e2)
    else
      ({ st1 with session := set_error st1.session (chunkFailMsg i e) }, some e)

/-- The chunk loop over the indexed chunk list. -/
def chunkLoop (env : OrchEnv) (total : Nat) :
    List (Nat × String) → LoopState → LoopState × Option String
  | [], st => (st, none)
  | ic :: rest, st =>
    match processChunk env total ic.1 ic.2 st with
    | (st', none) => chunkLoop env total rest st'
    | (st', some e) => (st', some e)

/-- `_generate_chunked_speech`: run all chunks, combine the audio, run the
final MFA pass, select `perfect_timings` exactly when it contains an `is_mfa`
entry (else the temporary per-chunk estimates), finalize, complete the
session.  An abort returns `Except.error` — no partial audio or timings. -/
def generate_chunked_speech (env : OrchEnv) (chunks : List String) :
    Except String (Audio × List PyTiming) × Session × List Event :=
  let st0 : LoopState :=
    { audio := [], temp := [], cum := 0,
      session := create_session chunks.length, events := [] }
  match chunkLoop env chunks.length chunks.enum st0 with
  | (st, some e) => (Except.error e, st.session, st.events)
  | (st, none) =>
    let combined := st.audio.flatten
    let st1 := { st with
      session := update_progress st.session chunks.length "Running final alignment..." }
    let perfect := env.finalPass
    let final_word_timings := if perfect.any (fun t => t.is_mfa) then perfect else st1.temp
    (Except.ok (combined, finalize_timings env.cc final_word_timings),
     complete_session st1.session, st1.events)

/-- The synthesis result chunk `i` ends up using on a run that is not aborted:
attempt 0 if it succeeded, the retry if attempt 0 raised a 429, `none` when
the chunk aborts the job. -/
def chunkSuccessResult (env : OrchEnv) (i : Nat) : Option (Audio × List SentenceTiming) :=
  match env.api i 0 with
  | Except.ok r => some r
  | Except.error e =>
    if contains429 e then
      match env.api i 1 with
      | Except.ok r => some r
      | Except.error _ => none
    else none

/-- Closed form of the temporary per-chunk estimates accumulated by a fully
successful run of the chunk loop, starting from cumulative time `cum`. -/
def tempEstimates (env : OrchEnv) : List (Nat × String) → ℚ → List PyTiming
  | [], _ => []
  | ic :: rest, cum =>
    match chunkSuccessResult env ic.1 with
    | some (audio, timings) =>
      adjust_timing_offsets (estimate_word_timings (env.jieba ic.2) timings) cum
        ++ tempEstimates env rest (cum + get_actual_audio_duration env audio)
    | none => []

/-- `_extract_word_timings`: the aligner (availability check plus
`align_chinese_audio` call) is modelled by `aligner : Option (List PyTiming)`
— `none` when MFA is unavailable or the call raises, in which case the code
falls back to `_estimate_word_timings`. -/
def extract_word_timings (aligner : Option (List PyTiming)) (toks : List String)
    (st : List SentenceTiming) : List PyTiming :=
  match aligner with
  | some ts => ts
  | none => estimate_word_timings toks st

/-- `_generate_single_chunk` after the API call: extract word timings from the
synthesized audio, then finalize. -/
def generate_single_chunk (aligner : Option (List PyTiming))
    (cc : Option (String → Option String)) (toks : List String)
    (audio : Audio) (st : List SentenceTiming) : Audio × List PyTiming :=
  (audio, finalize_timings cc (extract_word_timings aligner toks st))

/-- Characters of the enumerated punctuation/bracket/symbol set (the
specification reads the set character-wise). -/
def punctuationChars : List Char := (all_punctuation.map String.data).flatten

/-- The `filter_punctuation` keep-condition as the specification words it:
the stripped word is non-empty, not whitespace-only, not composed solely of
enumerated punctuation/bracket/symbol characters, and contains at least one
ideographic character. -/
def specKeep (w : String) : Prop :=
  pyStrip w ≠ "" ∧
  ¬((pyStrip w).data ≠ [] ∧ ∀ c ∈ (pyStrip w).data, pyIsSpace c = true) ∧
  ¬((pyStrip w).data ≠ [] ∧ ∀ c ∈ (pyStrip w).data, c ∈ punctuationChars) ∧
  ∃ c ∈ (pyStrip w).data, isCJK c = true

/-- Timings laid out gaplessly from time `cur`: each entry starts where its
predecessor ended and its span equals its duration. -/
def Contiguous : ℚ → List PyTiming → Prop
  | _, [] => True
  | cur, t :: rest =>
    t.start_time = cur ∧ t.end_time = cur + t.duration ∧ Contiguous t.end_time rest

/-- Total of the `duration` fields of a timing list. -/
def sumDurations (ts : List PyTiming) : ℚ := (ts.map PyTiming.duration).sum

/-- Every retry (attempt 1) recorded in an event trace is licensed by a 429
failure of attempt 0 and immediately preceded by the attempt-0 call and the
fixed 20 s cooldown sleep. -/
def RetryEvidence (env : OrchEnv) (evs : List Event) : Prop :=
  ∀ i, Event.apiCall i 1 ∈ evs →
    (∃ e, env.api i 0 = Except.error e ∧ contains429 e = true) ∧
    [Event.apiCall i 0, Event.sleep 20, Event.apiCall i 1] <:+: evs

/-- No chunk is ever attempted more than twice: every recorded API call is
attempt 0 or attempt 1. -/
def AttemptBound (evs : List Event) : Prop :=
  ∀ i a, Event.apiCall i a ∈ evs → a ≤ 1

/-- Concrete environment for the retry-abort scenario of the chunked path:
chunk 0's first attempt raises a 429 and its retry raises a different
(non-429) error, so the job aborts on the retry failure. -/
def envRetryFail : OrchEnv :=
  { api := fun i a =>
      if i = 0 ∧ a = 0 then Except.error "HTTP 429 Too Many Requests"
      else Except.error "boom",
    jieba := fun s => [s],
    probe := fun _ => 1000,
    finalPass := [],
    cc := none }

/-- An alignment-sourced entry as the final combined MFA pass produces. -/
def mfaEntry : PyTiming :=
  { word := "你好", start_time := 0, end_time := 500, duration := 500,
    source := "mfa_full", confidence := 1, is_mfa := true, offset := none }

/-- Concrete environment in which every synthesis call succeeds and the final
combined MFA pass yields one alignment-sourced (`is_mfa`) entry. -/
def envSelect : OrchEnv :=
  { api := fun _ _ =>
      Except.ok ([7], [{ text := "甲", start_time := 0, end_time := some 500 }]),
    jieba := fun s => [s],
    probe := fun _ => 500,
    finalPass := [mfaEntry],
    cc := none }

/-- Like `envSelect` but the final combined MFA pass returns `[]` (aligner
unavailable or failed), so the temporary estimates must be kept. -/
def envSelectNoMfa : OrchEnv :=
  { api := fun _ _ =>
      Except.ok ([7], [{ text := "甲", start_time := 0, end_time := some 500 }]),
    jieba := fun s => [s],
    probe := fun _ => 500,
    finalPass := [],
    cc := none }

/-- A timing whose dictionary carries no `offset` key, exactly as
`_estimate_word_timings` builds them. -/
def timingNoOffset : PyTiming :=
  { word := "你", start_time := 0, end_time := 5, duration := 5,
    source := "jieba_estimation", confidence := 0, is_mfa := false, offset := none }

/-- A timing that does carry the auxiliary `offset` key. -/
def timingWithOffset : PyTiming :=
  { word := "好", start_time := 3, end_time := 8, duration := 5,
    source := "mfa_full", confidence := 1, is_mfa := true, offset := some 3 }

/-- A punctuation-only timing entry ("，"). -/
def commaTiming : PyTiming :=
  { word := "，", start_time := 500, end_time := 550, duration := 50,
    source := "mfa_full", confidence := 1, is_mfa := true, offset := none }

/-- The single estimate `_estimate_word_timings` produces for the one-word
text "你" with no sentence timings (total duration `1 * 400`). -/
def estEntry : PyTiming :=
  { word := "你", start_time := 0, end_time := 400, duration := 400,
    source := "jieba_estimation", confidence := 0, is_mfa := false, offset := none }

/-! ## Basic string lemmas -/

theorem str_ext {a b : String} (h : a.data = b.data) : a = b := by
  cases a
  cases b
  exact congrArg String.mk h

theorem data_append (a b : String) : (a ++ b).data = a.data ++ b.data := by
  cases a
  cases b
  rfl

theorem str_eq_empty_iff (s : String) : s = "" ↔ s.data = [] := by
  constructor
  · intro h
    rw [h]
  · intro h
    exact str_ext h

theorem empty_append_str (s : String) : "" ++ s = s :=
  str_ext (by simp [data_append])

theorem str_append_empty (s : String) : s ++ "" = s :=
  str_ext (by simp [data_append])

theorem str_append_assoc (a b c : String) : a ++ b ++ c = a ++ (b ++ c) :=
  str_ext (by simp [data_append])

theorem joinS_append (l₁ l₂ : List String) : joinS (l₁ ++ l₂) = joinS l₁ ++ joinS l₂ := by
  induction l₁ with
  | nil => simp [joinS, empty_append_str]
  | cons x xs ih =>
    show x ++ joinS (xs ++ l₂) = x ++ joinS xs ++ joinS l₂
    rw [ih, str_append_assoc]

theorem joinS_ne_empty {l : List String} (hne : l ≠ []) (h : ∀ w ∈ l, w ≠ "") :
    joinS l ≠ "" := by
  cases l with
  | nil => exact absurd rfl hne
  | cons w ws =>
    intro hc
    have hd : (w ++ joinS ws).data = [] := (str_eq_empty_iff _).mp hc
    rw [data_append, List.append_eq_nil] at hd
    exact (h w (List.mem_cons_self w ws)) ((str_eq_empty_iff w).mpr hd.1)

/-! ## C7: round-tripping `_adjust_timing_offsets` -/

/-- C7 (counterexample).  The claim "`adjust_offsets(adjust_offsets(timings, k), -k)
== timings` for every timing list, including the auxiliary offset field" fails
on any timing whose dictionary lacks the `offset` key (exactly the shape
`_estimate_word_timings` produces): the first application materialises
`offset = start_time + k`, so the round trip returns a dict with an `offset`
key the original did not have. -/
theorem adjust_timing_offsets_roundtrip_cex :
    adjust_timing_offsets (adjust_timing_offsets [timingNoOffset] 7) (-7) ≠ [timingNoOffset] := by
  intro h
  have h2 := congrArg (fun l => ((l.headD timingNoOffset).offset).isSome) h
  simp [adjust_timing_offsets, timingNoOffset] at h2

/-- C7 (amended).  For every timing list in which each entry already carries
the auxiliary `offset` key, applying `_adjust_timing_offsets` with `k` and
then with `-k` returns the original list, all fields included. -/
theorem adjust_timing_offsets_roundtrip (ts : List PyTiming) (k : ℚ)
    (h : ∀ t ∈ ts, t.offset.isSome) :
    adjust_timing_offsets (adjust_timing_offsets ts k) (-k) = ts := by
  induction ts with
  | nil => rfl
  | cons t ts ih =>
    obtain ⟨o, ho⟩ := Option.isSome_iff_exists.mp (h t (List.mem_cons_self t ts))
    have htail := ih (fun x hx => h x (List.mem_cons_of_mem t hx))
    simp only [adjust_timing_offsets, List.map_cons] at htail ⊢
    refine congrArg₂ List.cons ?_ htail
    apply PyTiming.ext <;> simp [ho, add_neg_cancel_right]

/-- C7 (witness): the amended round trip at a concrete offset-bearing timing. -/
theorem adjust_timing_offsets_roundtrip_witness :
    (∀ t ∈ [timingWithOffset], t.offset.isSome) ∧
    adjust_timing_offsets (adjust_timing_offsets [timingWithOffset] 7) (-7) = [timingWithOffset] :=
  ⟨by simp [timingWithOffset],
   adjust_timing_offsets_roundtrip [timingWithOffset] 7 (by simp [timingWithOffset])⟩

/-! ## C10: `convert_word_timings` is a word-only rewrite -/

/-- C10.  `convert_word_timings` returns a list of the same length and order
as its input in which every entry equals the corresponding input entry in
every field except possibly `word` (each output entry is a copy of the input
entry with only the word replaced); being a total function of the embedding,
it never raises. -/
theorem convert_word_timings_frame (cc : Option (String → Option String)) (ts : List PyTiming) :
    (convert_word_timings cc ts).length = ts.length ∧
    List.Forall₂ (fun a b => b = { a with word := b.word }) ts (convert_word_timings cc ts) := by
  refine ⟨by simp [convert_word_timings], ?_⟩
  unfold convert_word_timings
  induction ts with
  | nil => exact List.Forall₂.nil
  | cons t ts ih =>
    rw [List.map_cons]
    refine List.Forall₂.cons ?_ ih
    by_cases h : t.word = ""
    · rw [if_pos h]
    · rw [if_neg h]

/-! ## C5: the punctuation filter -/

theorem pyIsSpace_toNat_lt {c : Char} (h : pyIsSpace c = true) : c.toNat < 0x4e00 := by
  unfold pyIsSpace at h
  rw [Bool.or_eq_true] at h
  rcases h with h | h
  · have hmem : c ∈ [' ', '\t', '\n', '\r',
        (Char.ofNat 0x0b), (Char.ofNat 0x0c),
        (Char.ofNat 0x1c), (Char.ofNat 0x1d), (Char.ofNat 0x1e), (Char.ofNat 0x1f),
        (Char.ofNat 0x85), (Char.ofNat 0xa0), (Char.ofNat 0x1680),
        (Char.ofNat 0x2028), (Char.ofNat 0x2029), (Char.ofNat 0x202f),
        (Char.ofNat 0x205f), (Char.ofNat 0x3000)] := List.elem_iff.mp h
    have hall : ∀ x ∈ [' ', '\t', '\n', '\r',
        (Char.ofNat 0x0b), (Char.ofNat 0x0c),
        (Char.ofNat 0x1c), (Char.ofNat 0x1d), (Char.ofNat 0x1e), (Char.ofNat 0x1f),
        (Char.ofNat 0x85), (Char.ofNat 0xa0), (Char.ofNat 0x1680),
        (Char.ofNat 0x2028), (Char.ofNat 0x2029), (Char.ofNat 0x202f),
        (Char.ofNat 0x205f), (Char.ofNat 0x3000)], x.toNat < 0x4e00 := by decide
    exact hall c hmem
  · have := of_decide_eq_true h
    omega

theorem isCJK_not_space {c : Char} (h : isCJK c = true) : pyIsSpace c = false := by
  have hge := (of_decide_eq_true h).1
  cases hsp : pyIsSpace c with
  | false => rfl
  | true => exact absurd (pyIsSpace_toNat_lt hsp) (by omega)

theorem all_punctuation_no_cjk :
    ∀ s ∈ all_punctuation, s.data ≠ [] ∧ ∀ c ∈ s.data, isCJK c = false := by
  decide

theorem punctuationChars_no_cjk : ∀ c ∈ punctuationChars, isCJK c = false := by
  decide

/-- The code's keep-condition coincides with the specification's phrasing. -/
theorem filterKeep_iff (w : String) : filterKeep w = true ↔ specKeep w := by
  unfold filterKeep specKeep
  simp only [Bool.and_eq_true, bne_iff_ne, Bool.not_eq_true', List.any_eq_true]
  constructor
  · rintro ⟨⟨⟨hne, hnp⟩, hns⟩, c, hc, hcjk⟩
    refine ⟨hne, ?_, ?_, ⟨c, hc, hcjk⟩⟩
    · rintro ⟨-, hall⟩
      have := hall c hc
      rw [isCJK_not_space hcjk] at this
      exact Bool.false_ne_true this
    · rintro ⟨-, hall⟩
      have := punctuationChars_no_cjk c (hall c hc)
      rw [hcjk] at this
      exact Bool.noConfusion this
  · rintro ⟨hne, hnsp, hnpc, c, hc, hcjk⟩
    refine ⟨⟨⟨hne, ?_⟩, ?_⟩, c, hc, hcjk⟩
    · cases hmem : all_punctuation.contains (pyStrip w) with
      | false => rfl
      | true =>
        exfalso
        have hmem' : pyStrip w ∈ all_punctuation := List.elem_iff.mp hmem
        refine hnpc ⟨(all_punctuation_no_cjk _ hmem').1, ?_⟩
        intro x hx
        unfold punctuationChars
        rw [List.mem_flatten]
        exact ⟨(pyStrip w).data, List.mem_map_of_mem String.data hmem', hx⟩
    · cases hsp : pyIsspaceStr (pyStrip w) with
      | false => rfl
      | true =>
        unfold pyIsspaceStr at hsp
        rw [Bool.and_eq_true, Bool.not_eq_true', List.isEmpty_eq_false_iff_exists_mem] at hsp
        refine absurd ⟨?_, ?_⟩ hnsp
        · obtain ⟨x, hx⟩ := hsp.1
          exact List.ne_nil_of_mem hx
        · exact fun x hx => List.all_eq_true.mp hsp.2 x hx

/-- C5.  `_filter_punctuation_timings` returns an order-preserving subsequence
of its input containing exactly those entries whose stripped word satisfies
the spec condition (non-empty, not whitespace-only, not pure punctuation, at
least one ideographic character — the four conjuncts being jointly equivalent
to the code's test); consequently every entry of `_finalize_timings` output
contains an ideographic character and is not punctuation-only. -/
theorem filter_punctuation_spec (ts : List PyTiming) (cc : Option (String → Option String)) :
    (filter_punctuation_timings ts).Sublist ts ∧
    (∀ t, t ∈ filter_punctuation_timings ts ↔ t ∈ ts ∧ specKeep t.word) ∧
    (∀ t ∈ finalize_timings cc ts,
      (∃ c ∈ (pyStrip t.word).data, isCJK c = true) ∧
      ¬((pyStrip t.word).data ≠ [] ∧ ∀ c ∈ (pyStrip t.word).data, c ∈ punctuationChars)) := by
  refine ⟨List.filter_sublist _, ?_, ?_⟩
  · intro t
    rw [show filter_punctuation_timings ts = ts.filter (fun t => filterKeep t.word) from rfl,
        List.mem_filter, filterKeep_iff]
  · intro t ht
    have hmem : filterKeep t.word = true :=
      (List.mem_filter.mp (by exact ht : t ∈ (convert_word_timings cc ts).filter
        (fun t => filterKeep t.word))).2
    have hspec := (filterKeep_iff _).mp hmem
    exact ⟨hspec.2.2.2, hspec.2.2.1⟩

/-- C5 (witness): on `[mfaEntry, commaTiming]` the filter keeps the Chinese
word and drops the punctuation entry. -/
theorem filter_punctuation_spec_witness :
    mfaEntry ∈ filter_punctuation_timings [mfaEntry, commaTiming] ∧
    commaTiming ∉ filter_punctuation_timings [mfaEntry, commaTiming] := by
  have h := (filter_punctuation_spec [mfaEntry, commaTiming] none).2.1
  constructor
  · exact (h mfaEntry).mpr ⟨List.mem_cons_self _ _, by decide, by decide, by decide, by decide⟩
  · intro hc
    have h2 := ((h commaTiming).mp hc).2
    have hno : ¬∃ c ∈ (pyStrip "，").data, isCJK c = true := by decide
    exact hno h2.2.2.2

/-! ## C4: aligner failure falls back to estimation everywhere -/

theorem estSpans_mem_fields (total L : ℚ) :
    ∀ (ws : List String) (cur : ℚ) (t : PyTiming), t ∈ estSpans total L ws cur →
      t.source = "jieba_estimation" ∧ t.is_mfa = false ∧ t.confidence = 0 := by
  intro ws
  induction ws with
  | nil => intro cur t ht; cases ht
  | cons w ws ih =>
    intro cur t ht
    rcases List.mem_cons.mp ht with h | h
    · subst h; exact ⟨rfl, rfl, rfl⟩
    · exact ih _ t h

theorem estimate_word_timings_mem_fields (toks : List String) (st : List SentenceTiming)
    (t : PyTiming) (ht : t ∈ estimate_word_timings toks st) :
    t.source = "jieba_estimation" ∧ t.is_mfa = false ∧ t.confidence = 0 := by
  unfold estimate_word_timings at ht
  simp only at ht
  split at ht
  · cases ht
  · split at ht
    · cases ht
    · exact estSpans_mem_fields _ _ _ _ t ht

theorem convert_word_timings_mem_fields (cc : Option (String → Option String))
    (ts : List PyTiming) (t : PyTiming) (ht : t ∈ convert_word_timings cc ts) :
    ∃ t₀ ∈ ts, t.source = t₀.source ∧ t.is_mfa = t₀.is_mfa ∧ t.confidence = t₀.confidence := by
  unfold convert_word_timings at ht
  obtain ⟨t₀, ht₀, heq⟩ := List.mem_map.mp ht
  refine ⟨t₀, ht₀, ?_⟩
  by_cases h : t₀.word = ""
  · rw [if_pos h] at heq; subst heq; exact ⟨rfl, rfl, rfl⟩
  · rw [if_neg h] at heq; subst heq; exact ⟨rfl, rfl, rfl⟩

/-- C4.  When the forced aligner is unavailable or its call raises (modelled
by `aligner = none`), `_extract_word_timings` falls back to the estimator, the
single-chunk job still completes (the function is total), and every entry of
the finalized output has `source = "jieba_estimation"` and `is_mfa = false`
(and confidence 0). -/
theorem aligner_fallback_all_jieba (cc : Option (String → Option String))
    (toks : List String) (audio : Audio) (st : List SentenceTiming) :
    ∀ t ∈ (generate_single_chunk none cc toks audio st).2,
      t.source = "jieba_estimation" ∧ t.is_mfa = false := by
  intro t ht
  have ht' : t ∈ convert_word_timings cc (estimate_word_timings toks st) :=
    List.mem_of_mem_filter
      (by exact ht : t ∈ (convert_word_timings cc (estimate_word_timings toks st)).filter
        (fun t => filterKeep t.word))
  obtain ⟨t₀, ht₀, hsrc, hmfa, -⟩ := convert_word_timings_mem_fields cc _ t ht'
  have h₀ := estimate_word_timings_mem_fields toks st t₀ ht₀
  exact ⟨hsrc.trans h₀.1, hmfa.trans h₀.2.1⟩

theorem est_total_one : est_total ["你"] [] = 400 := by
  unfold est_total
  rw [show stripWords ["你"] = ["你"] from rfl,
    show (["你"] : List String).length = 1 from rfl]
  norm_num

theorem est_total_chars_one : est_total_chars ["你"] = 1 := by
  unfold est_total_chars
  rw [show stripWords ["你"] = ["你"] from rfl,
    show (["你"] : List String).map String.length = [1] from rfl]
  norm_num

theorem estimate_one_word : estimate_word_timings ["你"] [] = [estEntry] := by
  have hsw : stripWords ["你"] = ["你"] := rfl
  unfold estimate_word_timings
  rw [if_neg (by rw [hsw]; exact Bool.noConfusion), if_neg, hsw]
  · show estSpans (est_total ["你"] []) (est_total_chars ["你"]) ["你"] 0 = [estEntry]
    rw [est_total_one, est_total_chars_one]
    refine congrArg₂ List.cons ?_ rfl
    have hd : max ((400 : ℚ) * (("你".length : ℚ) / 1)) 100 = 400 := by
      have h1 : (400 : ℚ) * (("你".length : ℚ) / 1) = 400 := by
        rw [show "你".length = 1 from rfl]
        norm_num
      rw [h1]
      exact max_eq_left (by norm_num)
    apply PyTiming.ext
    · rfl
    · rfl
    · show (0 : ℚ) + max ((400 : ℚ) * (("你".length : ℚ) / 1)) 100 = estEntry.end_time
      rw [hd]
      show (0 : ℚ) + 400 = 400
      norm_num
    · show max ((400 : ℚ) * (("你".length : ℚ) / 1)) 100 = estEntry.duration
      rw [hd]
      rfl
    · rfl
    · rfl
    · rfl
    · rfl
  · rintro (h | h)
    · rw [est_total_one] at h
      norm_num at h
    · rw [est_total_chars_one] at h
      norm_num at h

/-- C4 (witness): for the one-word text "你" with no aligner, the finalized
output is the single estimator entry, with source and flag as claimed. -/
theorem aligner_fallback_all_jieba_witness :
    estEntry ∈ (generate_single_chunk none none ["你"] [1] []).2 ∧
    estEntry.source = "jieba_estimation" ∧ estEntry.is_mfa = false := by
  have hmem : estEntry ∈ (generate_single_chunk none none ["你"] [1] []).2 := by
    show estEntry ∈ finalize_timings none (estimate_word_timings ["你"] [])
    rw [estimate_one_word]
    decide
  exact ⟨hmem, (aligner_fallback_all_jieba none ["你"] [1] [] estEntry hmem).1,
    (aligner_fallback_all_jieba none ["你"] [1] [] estEntry hmem).2⟩

/-! ## C8 / C9: the duration estimator -/

theorem stripWords_mem_ne_empty (toks : List String) :
    ∀ w ∈ stripWords toks, w ≠ "" := by
  intro w hw
  have := List.of_mem_filter hw
  exact bne_iff_ne.mp this

theorem est_total_chars_pos (toks : List String) (hw : stripWords toks ≠ []) :
    0 < est_total_chars toks := by
  unfold est_total_chars
  obtain ⟨w, ws, hcons⟩ := List.exists_cons_of_ne_nil hw
  have hwne : w ≠ "" := stripWords_mem_ne_empty toks w (hcons ▸ List.mem_cons_self w ws)
  have hlen : 0 < w.length := by
    have : w.data ≠ [] := fun hd => hwne ((str_eq_empty_iff w).mpr hd)
    exact List.length_pos.mpr this
  have : 0 < ((stripWords toks).map String.length).sum := by
    rw [hcons, List.map_cons, List.sum_cons]
    omega
  exact_mod_cast this

theorem sum_map_mul_left' (l : List String) (b : ℚ) (f : String → ℚ) :
    (l.map (fun w => b * f w)).sum = b * (l.map f).sum := by
  induction l with
  | nil => simp
  | cons x xs ih => simp [ih, mul_add]

theorem cast_sum_lengths (l : List String) :
    (((l.map String.length).sum : ℕ) : ℚ) = (l.map (fun w => (w.length : ℚ))).sum := by
  induction l with
  | nil => simp
  | cons x xs ih =>
    rw [List.map_cons, List.sum_cons, List.map_cons, List.sum_cons]
    push_cast [ih]
    rfl

theorem share_sum (total L : ℚ) (hL : L ≠ 0) (ws : List String)
    (hsum : (((ws.map String.length).sum : ℕ) : ℚ) = L) :
    (ws.map (fun w => total * ((w.length : ℚ) / L))).sum = total := by
  have h1 : ∀ w ∈ ws, total * ((w.length : ℚ) / L) = (total / L) * (w.length : ℚ) :=
    fun w _ => by ring
  rw [List.map_congr_left h1, sum_map_mul_left', ← cast_sum_lengths, hsum]
  field_simp

theorem estSpans_forall₂ (total L : ℚ) : ∀ (ws : List String) (cur : ℚ),
    List.Forall₂ (fun w t => t.word = w ∧
      t.duration = max (total * ((w.length : ℚ) / L)) 100) ws (estSpans total L ws cur) := by
  intro ws
  induction ws with
  | nil => intro cur; exact List.Forall₂.nil
  | cons w ws ih => intro cur; exact List.Forall₂.cons ⟨rfl, rfl⟩ (ih _)

theorem estSpans_contiguous (total L : ℚ) : ∀ (ws : List String) (cur : ℚ),
    Contiguous cur (estSpans total L ws cur) := by
  intro ws
  induction ws with
  | nil => intro cur; trivial
  | cons w ws ih => intro cur; exact ⟨rfl, rfl, ih _⟩

theorem estSpans_mem_dur_ge (total L : ℚ) : ∀ (ws : List String) (cur : ℚ) (t : PyTiming),
    t ∈ estSpans total L ws cur → 100 ≤ t.duration := by
  intro ws
  induction ws with
  | nil => intro cur t ht; cases ht
  | cons w ws ih =>
    intro cur t ht
    rcases List.mem_cons.mp ht with h | h
    · subst h; exact le_max_right _ _
    · exact ih _ t h

theorem sumDurations_cons (t : PyTiming) (ts : List PyTiming) :
    sumDurations (t :: ts) = t.duration + sumDurations ts := by
  simp [sumDurations]

theorem estSpans_sum (total L : ℚ) : ∀ (ws : List String) (cur : ℚ),
    sumDurations (estSpans total L ws cur)
      = (ws.map (fun w => max (total * ((w.length : ℚ) / L)) 100)).sum := by
  intro ws
  induction ws with
  | nil => intro cur; rfl
  | cons w ws ih =>
    intro cur
    rw [show estSpans total L (w :: ws) cur =
      { word := w, start_time := cur,
        end_time := cur + max (total * ((w.length : ℚ) / L)) 100,
        duration := max (total * ((w.length : ℚ) / L)) 100,
        source := "jieba_estimation", confidence := 0, is_mfa := false, offset := none }
        :: estSpans total L ws (cur + max (total * ((w.length : ℚ) / L)) 100) from rfl]
    rw [sumDurations_cons, ih, List.map_cons, List.sum_cons]

theorem estimate_eq_estSpans (toks : List String) (st : List SentenceTiming)
    (hw : stripWords toks ≠ []) (ht : 0 < est_total toks st) :
    estimate_word_timings toks st
      = estSpans (est_total toks st) (est_total_chars toks) (stripWords toks) 0 := by
  unfold estimate_word_timings
  rw [if_neg, if_neg]
  · rintro (h | h)
    · exact absurd ht (not_lt.mpr h)
    · exact absurd h (ne_of_gt (est_total_chars_pos toks hw))
  · intro hempty
    exact hw (List.isEmpty_iff.mp hempty)

/-- C8 (amended).  For every token list and sentence timing whose derived word
list is non-empty and whose derived total duration is positive, the estimator
assigns each word the duration `max(total · len(w)/Σlen, 100)`, lays the
timings out contiguously from 0, gives every entry at least the 100 ms floor,
and the durations sum to at least the total — with equality exactly when the
floor never binds (so "Σ duration ≈ total" holds only in that case; the floor
can push the sum strictly above the total). -/
theorem estimate_word_timings_spec (toks : List String) (st : List SentenceTiming)
    (hw : stripWords toks ≠ []) (ht : 0 < est_total toks st) :
    List.Forall₂ (fun w t => t.word = w ∧
        t.duration = max (est_total toks st * ((w.length : ℚ) / est_total_chars toks)) 100)
      (stripWords toks) (estimate_word_timings toks st) ∧
    Contiguous 0 (estimate_word_timings toks st) ∧
    (∀ t ∈ estimate_word_timings toks st, 100 ≤ t.duration) ∧
    est_total toks st ≤ sumDurations (estimate_word_timings toks st) ∧
    ((∀ w ∈ stripWords toks,
        100 ≤ est_total toks st * ((w.length : ℚ) / est_total_chars toks)) →
      sumDurations (estimate_word_timings toks st) = est_total toks st) := by
  rw [estimate_eq_estSpans toks st hw ht]
  refine ⟨estSpans_forall₂ _ _ _ _, estSpans_contiguous _ _ _ _,
    fun t => estSpans_mem_dur_ge _ _ _ _ t, ?_, ?_⟩
  · rw [estSpans_sum]
    have hpt : (ws : List String) → (ws.map (fun w =>
        est_total toks st * ((w.length : ℚ) / est_total_chars toks))).sum
        ≤ (ws.map (fun w =>
          max (est_total toks st * ((w.length : ℚ) / est_total_chars toks)) 100)).sum :=
      fun ws => List.sum_le_sum (fun w _ => le_max_left _ _)
    calc est_total toks st
        = ((stripWords toks).map (fun w =>
            est_total toks st * ((w.length : ℚ) / est_total_chars toks))).sum :=
          (share_sum _ _ (ne_of_gt (est_total_chars_pos toks hw)) _ rfl).symm
      _ ≤ _ := hpt _
  · intro hfloor
    rw [estSpans_sum]
    have : ∀ w ∈ stripWords toks,
        max (est_total toks st * ((w.length : ℚ) / est_total_chars toks)) 100
          = est_total toks st * ((w.length : ℚ) / est_total_chars toks) :=
      fun w hw' => max_eq_left (hfloor w hw')
    rw [List.map_congr_left this]
    exact share_sum _ _ (ne_of_gt (est_total_chars_pos toks hw)) _ rfl

/-- C8 (counterexample).  With two one-character words and a coarse total of
150 ms, each word's proportional share is 75 ms, so the 100 ms floor binds and
the durations sum to 200 ms ≠ 150 ms: the floor makes "Σ duration_i ≈
total_duration (within rounding)" false. -/
theorem estimate_sum_exceeds_total_cex :
    est_total ["一", "二"] [{ text := "一二", start_time := 0, end_time := some 150 }] = 150 ∧
    sumDurations (estimate_word_timings ["一", "二"]
      [{ text := "一二", start_time := 0, end_time := some 150 }]) = 200 := by
  have htot : est_total ["一", "二"]
      [{ text := "一二", start_time := 0, end_time := some 150 }] = 150 := rfl
  refine ⟨htot, ?_⟩
  have hsw : stripWords ["一", "二"] = ["一", "二"] := rfl
  have hch : est_total_chars ["一", "二"] = 2 := by
    unfold est_total_chars
    rw [hsw, show (["一", "二"] : List String).map String.length = [1, 1] from rfl]
    norm_num
  rw [estimate_eq_estSpans _ _ (by rw [hsw]; exact fun h => List.noConfusion h)
      (by rw [htot]; norm_num), estSpans_sum, htot, hch, hsw]
  have h1 : max ((150 : ℚ) * (("一".length : ℚ) / 2)) 100 = 100 := by
    have : (150 : ℚ) * (("一".length : ℚ) / 2) = 75 := by
      rw [show "一".length = 1 from rfl]
      norm_num
    rw [this]
    exact max_eq_right (by norm_num)
  have h2 : max ((150 : ℚ) * (("二".length : ℚ) / 2)) 100 = 100 := by
    have : (150 : ℚ) * (("二".length : ℚ) / 2) = 75 := by
      rw [show "二".length = 1 from rfl]
      norm_num
    rw [this]
    exact max_eq_right (by norm_num)
  rw [List.map_cons, List.map_cons, List.map_nil, List.sum_cons, List.sum_cons, List.sum_nil,
    h1, h2]
  norm_num

/-- C8 (witness): the amended estimator contract at the one-word text "你好"
with no coarse timing: one 400 ms entry, contiguous from 0, sum equal to the
total since the floor does not bind. -/
theorem estimate_word_timings_spec_witness :
    Contiguous 0 (estimate_word_timings ["你好"] []) ∧
    sumDurations (estimate_word_timings ["你好"] []) = est_total ["你好"] [] := by
  have hsw : stripWords ["你好"] = ["你好"] := rfl
  have hne : stripWords ["你好"] ≠ [] := by rw [hsw]; exact fun h => List.noConfusion h
  have htot : est_total ["你好"] [] = 400 := by
    unfold est_total
    rw [hsw, show (["你好"] : List String).length = 1 from rfl]
    norm_num
  have hch : est_total_chars ["你好"] = 2 := by
    unfold est_total_chars
    rw [hsw, show (["你好"] : List String).map String.length = [2] from rfl]
    norm_num
  have hpos : 0 < est_total ["你好"] [] := by rw [htot]; norm_num
  have h := estimate_word_timings_spec ["你好"] [] hne hpos
  refine ⟨h.2.1, h.2.2.2.2 ?_⟩
  intro w hw'
  rw [hsw] at hw'
  rcases List.mem_singleton.mp hw' with rfl
  rw [htot, hch, show "你好".length = 2 from rfl]
  norm_num

/-- C9 (amended).  The estimator's total is the coarse `end_time` whenever the
field is present — regardless of sign; when it is present but non-positive the
estimator returns the empty list (it does not fall back to the 400 ms/word
default, contrary to the original claim); the 400 ms/word default applies only
when the field or the sentence-timing list is absent.  Empty input yields an
empty list, and the function is total (never raises). -/
theorem est_total_selection (toks : List String) (st : List SentenceTiming) :
    (st = [] → est_total toks st = 400 * ((stripWords toks).length : ℚ)) ∧
    (∀ s rest, st = s :: rest → s.end_time = none →
      est_total toks st = 400 * ((stripWords toks).length : ℚ)) ∧
    (∀ s rest e, st = s :: rest → s.end_time = some e → est_total toks st = e) ∧
    (∀ s rest e, st = s :: rest → s.end_time = some e → e ≤ 0 →
      estimate_word_timings toks st = []) ∧
    (stripWords toks = [] → estimate_word_timings toks st = []) := by
  refine ⟨?_, ?_, ?_, ?_, ?_⟩
  · rintro rfl; rfl
  · rintro s rest rfl hnone
    show s.end_time.getD (400 * ((stripWords toks).length : ℚ))
      = 400 * ((stripWords toks).length : ℚ)
    rw [hnone]
    rfl
  · rintro s rest e rfl hsome
    show s.end_time.getD (400 * ((stripWords toks).length : ℚ)) = e
    rw [hsome]
    rfl
  · rintro s rest e rfl hsome hle
    unfold estimate_word_timings
    by_cases hw : (stripWords toks).isEmpty
    · rw [if_pos hw]
    · rw [if_neg hw, if_pos]
      left
      show s.end_time.getD (400 * ((stripWords toks).length : ℚ)) ≤ 0
      rw [hsome]
      exact hle
  · intro hsw
    unfold estimate_word_timings
    rw [if_pos]
    rw [hsw]
    rfl

/-- C9 (counterexample).  A present but zero `end_time` makes the estimator
return `[]` (total duration 0), not the claimed `400 ms × word count`. -/
theorem est_total_nonpositive_cex :
    estimate_word_timings ["你"] [{ text := "x", start_time := 0, end_time := some 0 }] = [] ∧
    sumDurations (estimate_word_timings ["你"]
        [{ text := "x", start_time := 0, end_time := some 0 }])
      ≠ 400 * ((stripWords ["你"]).length : ℚ) := by
  have h : estimate_word_timings ["你"] [{ text := "x", start_time := 0, end_time := some 0 }] = [] := by
    have := (est_total_selection ["你"]
      [{ text := "x", start_time := 0, end_time := some 0 }]).2.2.2.1
    exact this _ _ 0 rfl rfl le_rfl
  refine ⟨h, ?_⟩
  rw [h]
  show (0 : ℚ) ≠ 400 * ((stripWords ["你"]).length : ℚ)
  rw [show stripWords ["你"] = ["你"] from rfl]
  norm_num

/-- C9 (witness): the amended total-selection rule at concrete inputs — a
present positive `end_time` is used as the total, a missing list gives the
400 ms/word default, and empty input yields the empty list. -/
theorem est_total_selection_witness :
    est_total ["你"] [{ text := "x", start_time := 0, end_time := some 700 }] = 700 ∧
    est_total ["你"] [] = 400 * ((stripWords ["你"]).length : ℚ) ∧
    estimate_word_timings [] [] = [] := by
  refine ⟨(est_total_selection ["你"] _).2.2.1 _ _ 700 rfl rfl,
    (est_total_selection ["你"] []).1 rfl,
    (est_total_selection [] []).2.2.2.2 rfl⟩

/-! ## C1: the text chunker -/

theorem foldl_invariant {α β : Type} (P : β → Prop) (f : β → α → β) :
    ∀ (l : List α) (init : β), P init → (∀ b a, a ∈ l → P b → P (f b a)) →
      P (l.foldl f init) := by
  intro l
  induction l with
  | nil => intro init h0 _; exact h0
  | cons x xs ih =>
    intro init h0 hstep
    exact ih (f init x) (hstep init x (List.mem_cons_self x xs) h0)
      (fun b a ha hb => hstep b a (List.mem_cons_of_mem x ha) hb)

theorem bestStep_fst (words : List String) (targetLength : Nat) (acc : Nat × Int) (i : Nat) :
    (bestStep words targetLength acc i).1 = i ∨ (bestStep words targetLength acc i).1 = acc.1 := by
  unfold bestStep
  dsimp only
  split
  · exact Or.inl rfl
  · exact Or.inr rfl

theorem bestFold_bounds (words : List String) (targetLength minPos maxPos : Nat)
    (hmin : 1 ≤ minPos) (hmax : maxPos ≤ words.length) :
    (1 ≤ targetLength →
      1 ≤ (((List.range' minPos (maxPos - minPos)).foldl (bestStep words targetLength)
        (targetLength, (-1 : Int))).1)) ∧
    (targetLength < words.length →
      (((List.range' minPos (maxPos - minPos)).foldl (bestStep words targetLength)
        (targetLength, (-1 : Int))).1) < words.length) := by
  have key := foldl_invariant
    (P := fun acc : Nat × Int =>
      (1 ≤ targetLength → 1 ≤ acc.1) ∧ (targetLength < words.length → acc.1 < words.length))
    (bestStep words targetLength)
    (List.range' minPos (maxPos - minPos)) (targetLength, (-1 : Int))
    ⟨fun h => h, fun h => h⟩ ?_
  · exact key
  · intro b i hi hb
    have hirange : minPos ≤ i ∧ i < minPos + (maxPos - minPos) := List.mem_range'_1.mp hi
    rcases bestStep_fst words targetLength b i with h | h
    · refine ⟨fun _ => ?_, fun _ => ?_⟩
      · rw [h]
        exact hmin.trans hirange.1
      · rw [h]
        omega
    · refine ⟨fun ht => ?_, fun ht => ?_⟩
      · rw [h]
        exact hb.1 ht
      · rw [h]
        exact hb.2 ht

theorem find_best_break_point_bounds (words : List String) (targetLength : Nat) :
    (1 ≤ targetLength → 1 ≤ find_best_break_point words targetLength) ∧
    (targetLength < words.length → find_best_break_point words targetLength < words.length) := by
  unfold find_best_break_point
  exact bestFold_bounds words targetLength _ _ (le_max_right _ _) (min_le_right _ _)

theorem split_chunks_loop_join (maxWords : Nat) (hmw : 1 ≤ maxWords) :
    ∀ (fuel : Nat) (rem : List String), rem.length ≤ fuel →
      joinS (split_chunks_loop maxWords fuel rem) = joinS rem := by
  intro fuel
  induction fuel with
  | zero =>
    intro rem h
    rw [List.length_eq_zero.mp (Nat.le_zero.mp h)]
    rfl
  | succ n ih =>
    intro rem h
    by_cases hre : rem.isEmpty
    · rw [List.isEmpty_iff.mp hre]
      rfl
    · by_cases hlen : rem.length ≤ maxWords
      · have key : split_chunks_loop maxWords (n + 1) rem = [joinS rem] := by
          rw [split_chunks_loop, if_neg hre, if_pos hlen]
        rw [key]
        show joinS rem ++ "" = joinS rem
        exact str_append_empty _
      · have hlt : maxWords < rem.length := Nat.lt_of_not_le hlen
        have htl : min maxWords rem.length = maxWords := min_eq_left (le_of_lt hlt)
        have hb := find_best_break_point_bounds rem (min maxWords rem.length)
        have h1 : 1 ≤ find_best_break_point rem (min maxWords rem.length) := by
          apply hb.1
          rw [htl]
          exact hmw
        have h2 : find_best_break_point rem (min maxWords rem.length) < rem.length := by
          apply hb.2
          rw [htl]
          exact hlt
        have key : split_chunks_loop maxWords (n + 1) rem =
            joinS (rem.take (find_best_break_point rem (min maxWords rem.length)))
              :: split_chunks_loop maxWords n
                (rem.drop (find_best_break_point rem (min maxWords rem.length))) := by
          rw [split_chunks_loop, if_neg hre, if_neg hlen]
        rw [key]
        show joinS (rem.take _) ++ joinS (split_chunks_loop maxWords n (rem.drop _)) = joinS rem
        rw [ih (rem.drop _) (by rw [List.length_drop]; omega)]
        rw [← joinS_append, List.take_append_drop]

theorem split_chunks_loop_ne_empty (maxWords : Nat) (hmw : 1 ≤ maxWords) :
    ∀ (fuel : Nat) (rem : List String), rem.length ≤ fuel → (∀ w ∈ rem, w ≠ "") →
      ∀ c ∈ split_chunks_loop maxWords fuel rem, c ≠ "" := by
  intro fuel
  induction fuel with
  | zero =>
    intro rem h _ c hc
    rw [List.length_eq_zero.mp (Nat.le_zero.mp h)] at hc
    cases hc
  | succ n ih =>
    intro rem h hw c hc
    by_cases hre : rem.isEmpty
    · rw [List.isEmpty_iff.mp hre] at hc
      cases hc
    · have hne : rem ≠ [] := fun hh => by rw [hh] at hre; exact hre rfl
      by_cases hlen : rem.length ≤ maxWords
      · rw [show split_chunks_loop maxWords (n + 1) rem = [joinS rem] by
          rw [split_chunks_loop, if_neg hre, if_pos hlen]] at hc
        rcases List.mem_singleton.mp hc with rfl
        exact joinS_ne_empty hne hw
      · have hlt : maxWords < rem.length := Nat.lt_of_not_le hlen
        have htl : min maxWords rem.length = maxWords := min_eq_left (le_of_lt hlt)
        have hb := find_best_break_point_bounds rem (min maxWords rem.length)
        have h1 : 1 ≤ find_best_break_point rem (min maxWords rem.length) := by
          apply hb.1
          rw [htl]
          exact hmw
        rw [show split_chunks_loop maxWords (n + 1) rem =
            joinS (rem.take (find_best_break_point rem (min maxWords rem.length)))
              :: split_chunks_loop maxWords n
                (rem.drop (find_best_break_point rem (min maxWords rem.length))) by
          rw [split_chunks_loop, if_neg hre, if_neg hlen]] at hc
        rcases List.mem_cons.mp hc with rfl | hc'
        · apply joinS_ne_empty
          · have : (rem.take (find_best_break_point rem (min maxWords rem.length))).length
                = min (find_best_break_point rem (min maxWords rem.length)) rem.length :=
              List.length_take _ _
            intro hnil
            rw [hnil] at this
            simp at this
            omega
          · exact fun w hmem => hw w (List.take_subset _ _ hmem)
        · exact ih (rem.drop _) (by rw [List.length_drop]; omega)
            (fun w hmem => hw w (List.drop_subset _ _ hmem)) c hc'

/-- C1 (amended).  For `max_words ≥ 1` (with `max_words = 0` the source loop
need not terminate), the chunker's output concatenates to the join of the
*stripped, non-whitespace* jieba tokens — which equals the input text exactly
when stripping loses nothing — and every chunk is non-empty whenever at least
one token survives stripping; when none does, the function returns `[text]`.
Whitespace that `word.strip()` removes from the tokens is therefore the only
loss: no word is duplicated or dropped. -/
theorem split_text_into_chunks_spec (text : String) (toks : List String) (maxWords : Nat)
    (hmw : 1 ≤ maxWords) :
    (stripWords toks ≠ [] →
      (∀ c ∈ split_text_into_chunks text toks maxWords, c ≠ "") ∧
      joinS (split_text_into_chunks text toks maxWords) = joinS (stripWords toks)) ∧
    (stripWords toks = [] → split_text_into_chunks text toks maxWords = [text]) ∧
    (joinS (stripWords toks) = text → stripWords toks ≠ [] →
      joinS (split_text_into_chunks text toks maxWords) = text) := by
  have h1 : stripWords toks ≠ [] →
      (∀ c ∈ split_text_into_chunks text toks maxWords, c ≠ "") ∧
      joinS (split_text_into_chunks text toks maxWords) = joinS (stripWords toks) := by
    intro hne
    unfold split_text_into_chunks
    rw [if_neg (fun h => hne (List.isEmpty_iff.mp h))]
    exact ⟨split_chunks_loop_ne_empty maxWords hmw _ _ le_rfl (stripWords_mem_ne_empty toks),
      split_chunks_loop_join maxWords hmw _ _ le_rfl⟩
  refine ⟨h1, ?_, fun hjoin hne => ((h1 hne).2).trans hjoin⟩
  intro hemp
  unfold split_text_into_chunks
  rw [if_pos (by rw [hemp]; rfl)]

/-- C1 (counterexample).  On the text `"你 好"` (jieba tokenises the space as
its own token, and the chunker strips each token and drops empty ones) the
chunker returns `["你好"]`, whose concatenation is not the original text: the
claimed identity `''.join(chunks) == t` fails for any text containing
whitespace. -/
theorem split_text_into_chunks_cex :
    split_text_into_chunks "你 好" ["你", " ", "好"] 120 = ["你好"] ∧
    joinS ["你", " ", "好"] = "你 好" ∧
    joinS (split_text_into_chunks "你 好" ["你", " ", "好"] 120) ≠ "你 好" := by
  refine ⟨rfl, rfl, ?_⟩
  rw [show split_text_into_chunks "你 好" ["你", " ", "好"] 120 = ["你好"] from rfl]
  decide

/-- C1 (witness): the amended contract at a concrete punctuated text whose
tokens strip to themselves, with `max_words = 1` exercising the break-point
search; the chunk concatenation reproduces the text exactly. -/
theorem split_text_into_chunks_spec_witness :
    joinS (split_text_into_chunks "你好。世界" ["你好", "。", "世界"] 1) = "你好。世界" :=
  (split_text_into_chunks_spec "你好。世界" ["你好", "。", "世界"] 1 le_rfl).2.2
    rfl (by decide)

/-! ## C2 / C3: the chunked orchestrator -/

theorem processChunk_eq_ok (env : OrchEnv) (total i : Nat) (chunk : String) (st : LoopState)
    (audio : Audio) (timings : List SentenceTiming)
    (h : env.api i 0 = Except.ok (audio, timings)) :
    processChunk env total i chunk st =
      (accumulateChunk env chunk audio timings
        { st with
          session := update_progress st.session (i + 1)
            ("Processing chunk " ++ toString (i + 1) ++ "/" ++ toString total ++ "..."),
          events := st.events ++ [Event.rateWait i, Event.apiCall i 0] }, none) := by
  unfold processChunk
  rw [h]

theorem processChunk_eq_retry_ok (env : OrchEnv) (total i : Nat) (chunk : String) (st : LoopState)
    (e : String) (audio : Audio) (timings : List SentenceTiming)
    (h : env.api i 0 = Except.error e) (h429 : contains429 e = true)
    (h1 : env.api i 1 = Except.ok (audio, timings)) :
    processChunk env total i chunk st =
      (accumulateChunk env chunk audio timings
        { st with
          session := update_progress st.session (i + 1)
            ("Processing chunk " ++ toString (i + 1) ++ "/" ++ toString total ++ "..."),
          events := (st.events ++ [Event.rateWait i, Event.apiCall i 0])
            ++ [Event.sleep 20, Event.apiCall i 1] }, none) := by
  unfold processChunk
  rw [h]
  dsimp only
  rw [if_pos h429, h1]

theorem processChunk_eq_retry_err (env : OrchEnv) (total i : Nat) (chunk : String) (st : LoopState)
    (e e2 : String)
    (h : env.api i 0 = Except.error e) (h429 : contains429 e = true)
    (h1 : env.api i 1 = Except.error e2) :
    processChunk env total i chunk st =
      ({ st with
         session := update_progress st.session (i + 1)
           ("Processing chunk " ++ toString (i + 1) ++ "/" ++ toString total ++ "..."),
         events := (st.events ++ [Event.rateWait i, Event.apiCall i 0])
           ++ [Event.sleep 20, Event.apiCall i 1] }, some e2) := by
  unfold processChunk
  rw [h]
  dsimp only
  rw [if_pos h429, h1]

theorem processChunk_eq_fail (env : OrchEnv) (total i : Nat) (chunk : String) (st : LoopState)
    (e : String)
    (h : env.api i 0 = Except.error e) (h429 : contains429 e = false) :
    processChunk env total i chunk st =
      ({ st with
         session := set_error (update_progress st.session (i + 1)
           ("Processing chunk " ++ toString (i + 1) ++ "/" ++ toString total ++ "..."))
           (chunkFailMsg i e),
         events := st.events ++ [Event.rateWait i, Event.apiCall i 0] }, some e) := by
  unfold processChunk
  rw [h]
  dsimp only
  rw [if_neg (fun hc => Bool.noConfusion (h429.symm.trans hc))]

theorem chunkLoop_cons (env : OrchEnv) (total : Nat) (ic : Nat × String)
    (rest : List (Nat × String)) (st : LoopState) :
    chunkLoop env total (ic :: rest) st =
      match processChunk env total ic.1 ic.2 st with
      | (st', none) => chunkLoop env total rest st'
      | (st', some e) => (st', some e) := rfl

theorem tempEstimates_cons (env : OrchEnv) (ic : Nat × String) (rest : List (Nat × String))
    (cum : ℚ) :
    tempEstimates env (ic :: rest) cum =
      match chunkSuccessResult env ic.1 with
      | some (audio, timings) =>
        adjust_timing_offsets (estimate_word_timings (env.jieba ic.2) timings) cum
          ++ tempEstimates env rest (cum + get_actual_audio_duration env audio)
      | none => [] := rfl

theorem chunkSuccessResult_ok (env : OrchEnv) (i : Nat) (audio : Audio)
    (timings : List SentenceTiming) (h : env.api i 0 = Except.ok (audio, timings)) :
    chunkSuccessResult env i = some (audio, timings) := by
  unfold chunkSuccessResult
  rw [h]

theorem chunkSuccessResult_retry_ok (env : OrchEnv) (i : Nat) (e : String) (audio : Audio)
    (timings : List SentenceTiming) (h : env.api i 0 = Except.error e)
    (h429 : contains429 e = true) (h1 : env.api i 1 = Except.ok (audio, timings)) :
    chunkSuccessResult env i = some (audio, timings) := by
  unfold chunkSuccessResult
  rw [h]
  dsimp only
  rw [if_pos h429, h1]

theorem chunkLoop_none_spec (env : OrchEnv) (total : Nat) :
    ∀ (l : List (Nat × String)) (st : LoopState),
      (chunkLoop env total l st).2 = none →
      (chunkLoop env total l st).1.temp = st.temp ++ tempEstimates env l st.cum ∧
      (chunkLoop env total l st).1.session.error = st.session.error := by
  intro l
  induction l with
  | nil =>
    intro st _
    exact ⟨(List.append_nil _).symm, rfl⟩
  | cons ic rest ih =>
    intro st hnone
    rcases hapi : env.api ic.1 0 with e | ⟨audio, timings⟩
    · cases h429 : contains429 e
      · rw [chunkLoop_cons, processChunk_eq_fail env total ic.1 ic.2 st e hapi h429] at hnone
        exact absurd hnone (by simp)
      · rcases hapi1 : env.api ic.1 1 with e2 | ⟨audio, timings⟩
        · rw [chunkLoop_cons,
            processChunk_eq_retry_err env total ic.1 ic.2 st e e2 hapi h429 hapi1] at hnone
          exact absurd hnone (by simp)
        · rw [chunkLoop_cons,
            processChunk_eq_retry_ok env total ic.1 ic.2 st e audio timings hapi h429 hapi1]
            at hnone ⊢
          dsimp only at hnone ⊢
          have hrec := ih _ hnone
          refine ⟨?_, ?_⟩
          · rw [hrec.1]
            show (st.temp ++ adjust_timing_offsets
                (estimate_word_timings (env.jieba ic.2) timings) st.cum)
              ++ tempEstimates env rest (st.cum + get_actual_audio_duration env audio)
              = st.temp ++ tempEstimates env (ic :: rest) st.cum
            rw [tempEstimates_cons,
              chunkSuccessResult_retry_ok env ic.1 e audio timings hapi h429 hapi1,
              List.append_assoc]
          · rw [hrec.2]
            rfl
    · rw [chunkLoop_cons, processChunk_eq_ok env total ic.1 ic.2 st audio timings hapi]
        at hnone ⊢
      dsimp only at hnone ⊢
      have hrec := ih _ hnone
      refine ⟨?_, ?_⟩
      · rw [hrec.1]
        show (st.temp ++ adjust_timing_offsets
            (estimate_word_timings (env.jieba ic.2) timings) st.cum)
          ++ tempEstimates env rest (st.cum + get_actual_audio_duration env audio)
          = st.temp ++ tempEstimates env (ic :: rest) st.cum
        rw [tempEstimates_cons, chunkSuccessResult_ok env ic.1 audio timings hapi,
          List.append_assoc]
      · rw [hrec.2]
        rfl

theorem chunkLoop_some_spec (env : OrchEnv) (total : Nat) :
    ∀ (l : List (Nat × String)) (st : LoopState) (st' : LoopState) (e : String),
      st.session.error = none →
      chunkLoop env total l st = (st', some e) →
      ((st'.session.error = none ∧ ∃ i e1, env.api i 0 = Except.error e1 ∧
          contains429 e1 = true ∧ env.api i 1 = Except.error e) ∨
       (∃ i, env.api i 0 = Except.error e ∧ contains429 e = false ∧
          st'.session.error = some (chunkFailMsg i e))) := by
  intro l
  induction l with
  | nil =>
    intro st st' e _ habs
    exact Option.noConfusion (show (none : Option String) = some e from congrArg Prod.snd habs)
  | cons ic rest ih =>
    intro st st' e herr hloop
    rcases hapi : env.api ic.1 0 with e1 | ⟨audio, timings⟩
    · cases h429 : contains429 e1
      · rw [chunkLoop_cons, processChunk_eq_fail env total ic.1 ic.2 st e1 hapi h429] at hloop
        dsimp only at hloop
        injection hloop with h1 h2
        injection h2 with h2
        subst h2
        refine Or.inr ⟨ic.1, hapi, h429, ?_⟩
        rw [← h1]
        rfl
      · rcases hapi1 : env.api ic.1 1 with e2 | ⟨audio, timings⟩
        · rw [chunkLoop_cons,
            processChunk_eq_retry_err env total ic.1 ic.2 st e1 e2 hapi h429 hapi1] at hloop
          dsimp only at hloop
          injection hloop with h1 h2
          injection h2 with h2
          subst h2
          refine Or.inl ⟨?_, ic.1, e1, hapi, h429, hapi1⟩
          rw [← h1]
          exact herr
        · rw [chunkLoop_cons,
            processChunk_eq_retry_ok env total ic.1 ic.2 st e1 audio timings hapi h429 hapi1]
            at hloop
          dsimp only at hloop
          refine ih _ st' e ?_ hloop
          exact herr
    · rw [chunkLoop_cons, processChunk_eq_ok env total ic.1 ic.2 st audio timings hapi] at hloop
      dsimp only at hloop
      refine ih _ st' e ?_ hloop
      exact herr

theorem infix_append_right {l evs b : List Event} (h : l <:+: evs) : l <:+: evs ++ b :=
  h.trans (List.prefix_append evs b).isInfix

theorem retryEvidence_append_noretry (env : OrchEnv) (evs : List Event) (i : Nat)
    (hg : RetryEvidence env evs) :
    RetryEvidence env (evs ++ [Event.rateWait i, Event.apiCall i 0]) := by
  intro j hj
  rcases List.mem_append.mp hj with h | h
  · exact ⟨(hg j h).1, infix_append_right (hg j h).2⟩
  · exact absurd h (by simp)

theorem retryEvidence_append_retry (env : OrchEnv) (evs : List Event) (i : Nat) (e : String)
    (hapi : env.api i 0 = Except.error e) (h429 : contains429 e = true)
    (hg : RetryEvidence env evs) :
    RetryEvidence env (evs ++
      [Event.rateWait i, Event.apiCall i 0, Event.sleep 20, Event.apiCall i 1]) := by
  intro j hj
  rcases List.mem_append.mp hj with h | h
  · exact ⟨(hg j h).1, infix_append_right (hg j h).2⟩
  · have hij : j = i := by simpa using h
    subst hij
    refine ⟨⟨e, hapi, h429⟩, ?_⟩
    rw [show evs ++ [Event.rateWait j, Event.apiCall j 0, Event.sleep 20, Event.apiCall j 1]
      = (evs ++ [Event.rateWait j]) ++ [Event.apiCall j 0, Event.sleep 20, Event.apiCall j 1]
      by simp]
    exact (List.suffix_append _ _).isInfix

theorem attemptBound_append (evs b : List Event) (hb : AttemptBound evs)
    (hblock : AttemptBound b) : AttemptBound (evs ++ b) := by
  intro i a h
  rcases List.mem_append.mp h with h | h
  · exact hb i a h
  · exact hblock i a h

theorem attemptBound_block1 (i : Nat) :
    AttemptBound [Event.rateWait i, Event.apiCall i 0] := by
  intro j a h
  simp only [List.mem_cons, List.not_mem_nil, or_false, List.mem_singleton] at h
  rcases h with h | h
  · exact Event.noConfusion h
  · have := (Event.apiCall.injEq j a i 0).mp h
    omega

theorem attemptBound_block2 (i : Nat) :
    AttemptBound [Event.rateWait i, Event.apiCall i 0, Event.sleep 20, Event.apiCall i 1] := by
  intro j a h
  simp only [List.mem_cons, List.not_mem_nil, or_false, List.mem_singleton] at h
  rcases h with h | h | h | h
  · exact Event.noConfusion h
  · have := (Event.apiCall.injEq j a i 0).mp h
    omega
  · exact Event.noConfusion h
  · have := (Event.apiCall.injEq j a i 1).mp h
    omega

theorem chunkLoop_events_spec (env : OrchEnv) (total : Nat) :
    ∀ (l : List (Nat × String)) (st : LoopState),
      RetryEvidence env st.events → AttemptBound st.events →
      RetryEvidence env (chunkLoop env total l st).1.events ∧
      AttemptBound (chunkLoop env total l st).1.events := by
  intro l
  induction l with
  | nil => intro st hg hb; exact ⟨hg, hb⟩
  | cons ic rest ih =>
    intro st hg hb
    rcases hapi : env.api ic.1 0 with e1 | ⟨audio, timings⟩
    · cases h429 : contains429 e1
      · rw [chunkLoop_cons, processChunk_eq_fail env total ic.1 ic.2 st e1 hapi h429]
        dsimp only
        exact ⟨retryEvidence_append_noretry env st.events ic.1 hg,
          attemptBound_append _ _ hb (attemptBound_block1 ic.1)⟩
      · rcases hapi1 : env.api ic.1 1 with e2 | ⟨audio, timings⟩
        · rw [chunkLoop_cons,
            processChunk_eq_retry_err env total ic.1 ic.2 st e1 e2 hapi h429 hapi1]
          dsimp only
          constructor
          · rw [List.append_assoc]
            exact retryEvidence_append_retry env st.events ic.1 e1 hapi h429 hg
          · rw [List.append_assoc]
            exact attemptBound_append _ _ hb (attemptBound_block2 ic.1)
        · rw [chunkLoop_cons,
            processChunk_eq_retry_ok env total ic.1 ic.2 st e1 audio timings hapi h429 hapi1]
          dsimp only
          refine ih _ ?_ ?_
          · show RetryEvidence env ((st.events ++ [Event.rateWait ic.1, Event.apiCall ic.1 0])
              ++ [Event.sleep 20, Event.apiCall ic.1 1])
            rw [List.append_assoc]
            exact retryEvidence_append_retry env st.events ic.1 e1 hapi h429 hg
          · show AttemptBound ((st.events ++ [Event.rateWait ic.1, Event.apiCall ic.1 0])
              ++ [Event.sleep 20, Event.apiCall ic.1 1])
            rw [List.append_assoc]
            exact attemptBound_append _ _ hb (attemptBound_block2 ic.1)
    · rw [chunkLoop_cons, processChunk_eq_ok env total ic.1 ic.2 st audio timings hapi]
      dsimp only
      refine ih _ ?_ ?_
      · exact retryEvidence_append_noretry env st.events ic.1 hg
      · exact attemptBound_append _ _ hb (attemptBound_block1 ic.1)

/-- C2 (amended).  In a multi-chunk job: a synthesis call whose raised error
contains "429" is retried at most once, and every recorded retry is licensed
by a 429 failure of attempt 0 and immediately preceded by the attempt-0 call
and a fixed 20 s cooldown sleep.  When the job aborts with error `e`, either
the retry itself failed — in which case the progress session is NOT marked
errored (the source skips `set_error` on this path, contrary to the original
claim) — or a non-429 exception aborted a first attempt with `set_error`
recording it.  In both cases the result is `Except.error e`: no partial audio
or timings are returned to the caller. -/
theorem chunked_retry_abort_spec (env : OrchEnv) (chunks : List String) :
    RetryEvidence env (generate_chunked_speech env chunks).2.2 ∧
    AttemptBound (generate_chunked_speech env chunks).2.2 ∧
    (∀ e, (generate_chunked_speech env chunks).1 = Except.error e →
      (((generate_chunked_speech env chunks).2.1.error = none ∧
        ∃ i e1, env.api i 0 = Except.error e1 ∧ contains429 e1 = true ∧
          env.api i 1 = Except.error e) ∨
       (∃ i, env.api i 0 = Except.error e ∧ contains429 e = false ∧
        (generate_chunked_speech env chunks).2.1.error = some (chunkFailMsg i e)))) ∧
    (∀ e, (generate_chunked_speech env chunks).1 = Except.error e →
      ∀ a ts, (generate_chunked_speech env chunks).1 ≠ Except.ok (a, ts)) := by
  have hinit : RetryEvidence env ([] : List Event) := fun i h => absurd h (List.not_mem_nil _)
  have hinit2 : AttemptBound ([] : List Event) := fun i a h => absurd h (List.not_mem_nil _)
  have hev := chunkLoop_events_spec env chunks.length chunks.enum
    { audio := [], temp := [], cum := 0,
      session := create_session chunks.length, events := [] } hinit hinit2
  unfold generate_chunked_speech
  dsimp only
  rcases hloop : chunkLoop env chunks.length chunks.enum
      { audio := [], temp := [], cum := 0,
        session := create_session chunks.length, events := [] }
    with ⟨stf, r⟩
  rw [hloop] at hev
  cases r with
  | some e0 =>
    dsimp only
    refine ⟨hev.1, hev.2, ?_, ?_⟩
    · intro e he
      injection he with he
      subst he
      exact chunkLoop_some_spec env chunks.length chunks.enum
        { audio := [], temp := [], cum := 0,
          session := create_session chunks.length, events := [] } stf e0 rfl hloop
    · intro e _ a ts hc
      exact Except.noConfusion hc
  | none =>
    dsimp only
    refine ⟨hev.1, hev.2, ?_, ?_⟩
    · intro e he
      exact Except.noConfusion he
    · intro e he
      exact Except.noConfusion he

/-- C3.  On a successful multi-chunk run, the finalized result is built from
the combined final-MFA-pass timings if and only if that pass yielded at least
one alignment-sourced (`is_mfa`) entry; in that case the temporary per-chunk
estimates are discarded in full, otherwise all of them are kept — the output
is always the finalization of exactly one of the two lists, never a mixture. -/
theorem select_timings_spec (env : OrchEnv) (chunks : List String) (a : Audio)
    (ts : List PyTiming)
    (h : (generate_chunked_speech env chunks).1 = Except.ok (a, ts)) :
    ((env.finalPass.any fun t => t.is_mfa) = true →
      ts = finalize_timings env.cc env.finalPass) ∧
    ((env.finalPass.any fun t => t.is_mfa) = false →
      ts = finalize_timings env.cc (tempEstimates env chunks.enum 0)) ∧
    (ts = finalize_timings env.cc env.finalPass ∨
      ts = finalize_timings env.cc (tempEstimates env chunks.enum 0)) := by
  unfold generate_chunked_speech at h
  dsimp only at h
  rcases hloop : chunkLoop env chunks.length chunks.enum
      { audio := [], temp := [], cum := 0,
        session := create_session chunks.length, events := [] }
    with ⟨stf, r⟩
  rw [hloop] at h
  cases r with
  | some e =>
    dsimp only at h
    exact Except.noConfusion h
  | none =>
    dsimp only at h
    injection h with h
    injection h with h1 h2
    have hnone : (chunkLoop env chunks.length chunks.enum
        { audio := [], temp := [], cum := 0,
          session := create_session chunks.length, events := [] }).2 = none := by
      rw [hloop]
    have htemp := (chunkLoop_none_spec env chunks.length chunks.enum _ hnone).1
    rw [hloop] at htemp
    dsimp only at htemp
    rw [List.nil_append] at htemp
    cases hany : (env.finalPass.any fun t => t.is_mfa) with
    | true =>
      rw [if_pos hany] at h2
      exact ⟨fun _ => h2.symm, fun hfalse => Bool.noConfusion hfalse,
        Or.inl h2.symm⟩
    | false =>
      rw [if_neg (fun hc => Bool.noConfusion (hany.symm.trans hc))] at h2
      rw [htemp] at h2
      exact ⟨fun htrue => Bool.noConfusion htrue,
        fun _ => h2.symm, Or.inr h2.symm⟩

/-- C2 (counterexample).  Chunk 0's first attempt raises a 429, the single
retry then raises "boom": the job aborts on a (non-429) exception raised
during a chunk, yet the progress session is NOT marked errored — its `error`
field is still `none` and its status is not "error", because the source only
calls `set_error` on the non-429 first-attempt path. -/
theorem chunked_retry_abort_cex :
    (generate_chunked_speech envRetryFail ["甲", "乙"]).1 = Except.error "boom" ∧
    contains429 "boom" = false ∧
    (generate_chunked_speech envRetryFail ["甲", "乙"]).2.1.error = none ∧
    (generate_chunked_speech envRetryFail ["甲", "乙"]).2.1.status ≠ "error" := by
  refine ⟨rfl, rfl, rfl, ?_⟩
  intro h
  exact absurd (congrArg String.data h) (by decide)

/-- C2 (witness): the amended abort dichotomy applied to the concrete
retry-failure environment. -/
theorem chunked_retry_abort_spec_witness :
    ((generate_chunked_speech envRetryFail ["甲", "乙"]).2.1.error = none ∧
      ∃ i e1, envRetryFail.api i 0 = Except.error e1 ∧ contains429 e1 = true ∧
        envRetryFail.api i 1 = Except.error "boom") ∨
    (∃ i, envRetryFail.api i 0 = Except.error "boom" ∧ contains429 "boom" = false ∧
      (generate_chunked_speech envRetryFail ["甲", "乙"]).2.1.error
        = some (chunkFailMsg i "boom")) :=
  (chunked_retry_abort_spec envRetryFail ["甲", "乙"]).2.2.1 "boom" rfl

/-- C3 (witness): with every synthesis call succeeding and a final MFA pass
yielding one `is_mfa` entry, the returned timings are exactly the finalized
combined-pass list (the temporary estimates are discarded). -/
theorem select_timings_spec_witness :
    (generate_chunked_speech envSelect ["甲", "乙"]).1 = Except.ok ([7, 7], [mfaEntry]) ∧
    [mfaEntry] = finalize_timings envSelect.cc envSelect.finalPass := by
  have hok : (generate_chunked_speech envSelect ["甲", "乙"]).1
      = Except.ok ([7, 7], [mfaEntry]) := rfl
  exact ⟨hok, (select_timings_spec envSelect ["甲", "乙"] [7, 7] [mfaEntry] hok).1 rfl⟩

/-! ## Supporting development for the converter's idempotence (C6)

The OpenCC engine tier is external library data that the repository does not
contain, so the idempotence claim cannot be settled in full here.  What can be
settled is the engine-absent configuration (`cc = none`, explicitly supported
by the source): because every key of `manual_char_mapping` is — in the bytes
the Python runtime actually sees — a three-character string, the
character-by-character tier never fires, and idempotence reduces to a finite
check on the exception table. -/

set_option maxRecDepth 4000 in
theorem manual_char_mapping_key_len :
    ∀ p ∈ manual_char_mapping, p.1.length = 3 := by
  decide

theorem manual_lookup_singleton (ch : Char) :
    pyDictGet manual_char_mapping (String.singleton ch) = none := by
  unfold pyDictGet
  cases hf : manual_char_mapping.reverse.find? (fun p => p.1 == String.singleton ch) with
  | none => rfl
  | some p =>
    exfalso
    have hmem := List.mem_of_find?_eq_some hf
    have hbeq := List.find?_some hf
    have heq : p.1 = String.singleton ch := eq_of_beq hbeq
    have hlen := manual_char_mapping_key_len p (List.mem_reverse.mp hmem)
    rw [heq] at hlen
    have h1 : (String.singleton ch).length = 1 := rfl
    omega

theorem convert_word_no_engine_eq (w : String) :
    convert_word none w =
      match pyDictGet ui_compatibility_mapping w with
      | some v => v
      | none => w := by
  unfold convert_word
  by_cases hw : w = ""
  · rw [if_pos hw]
    subst hw
    rfl
  · rw [if_neg hw]
    cases hui : pyDictGet ui_compatibility_mapping w with
    | some v => rfl
    | none =>
      dsimp only
      have hany : (w.data.any fun ch =>
          (pyDictGet manual_char_mapping (String.singleton ch)).isSome) = false := by
        rw [List.any_eq_false]
        intro ch _
        rw [manual_lookup_singleton ch]
        exact Bool.noConfusion
      rw [if_neg (fun hc => Bool.noConfusion (hany.symm.trans hc))]

theorem pyDictGet_mem {l : List (String × String)} {k v : String}
    (h : pyDictGet l k = some v) : ∃ p ∈ l, p.2 = v := by
  unfold pyDictGet at h
  cases hf : l.reverse.find? (fun p => p.1 == k) with
  | none => rw [hf] at h; cases h
  | some p =>
    rw [hf] at h
    injection h with h
    exact ⟨p, List.mem_reverse.mp (List.mem_of_find?_eq_some hf), h⟩

theorem ui_values_fixed : ∀ p ∈ ui_compatibility_mapping,
    (match pyDictGet ui_compatibility_mapping p.2 with
     | some v => v
     | none => p.2) = p.2 := by
  decide

/-- Idempotence of `convert_word` when the OpenCC engine is absent: tiers 1
and 3 alone are idempotent on every string.  (The claim over all three tiers,
OpenCC included, is not decidable from the repository.) -/
theorem convert_word_no_engine_idem (w : String) :
    convert_word none (convert_word none w) = convert_word none w := by
  rw [convert_word_no_engine_eq w, convert_word_no_engine_eq]
  cases hui : pyDictGet ui_compatibility_mapping w with
  | none => simp only [hui]
  | some v =>
    obtain ⟨p, hp, hpv⟩ := pyDictGet_mem hui
    simp only [hui]
    have hfix := ui_values_fixed p hp
    rw [hpv] at hfix
    exact hfix

end FastTTS
